import Mathlib

/-!
# The uast transformer engine: mappings, tree passes and the binding state

A shallow embedding of `uast/transformer/transformer.go`.

* Nodes are the tagged union of package `uast`: the nil node, objects, lists and
  primitive values.  Floating-point values are left out of the embedding.
* Go maps are references.  The maps held by a `State` live in an explicit `Heap`
  and a `State` holds their addresses, so that sharing between a state and its
  clone is visible in the model.
* An `Op` is an interface value whose methods may have effects of their own.
  Those effects are threaded through an abstract world `ω`.
-/

set_option autoImplicit false

namespace Transformer

/-! ## Nodes -/

/-- The primitive leaves of package `uast` (`uast.Value`): `String`, `Int`, `Bool`.
`Float` is not part of the embedding. -/
inductive Value where
  | str (s : String)
  | int (i : Int)
  | bool (b : Bool)
  deriving DecidableEq, Repr

/-- Modelled from the spec: the node type `uast.Node`, declared in package `uast`.
An Object is an ordered mapping from field name to node, a List an ordered
sequence of nodes, a Value a primitive leaf. The null leaf is `nil`, the nil
interface value of Go: the source tests visited nodes with `n != nil` and passes
`nil` where a node is expected. No type assertion succeeds on it. -/
inductive Node where
  | nil
  | obj (fields : List (String × Node))
  | list (elems : List Node)
  | val (v : Value)

/-- The type assertion `n.(uast.Object)` succeeds. -/
def Node.isObject : Node → Bool
  | .obj _ => true
  | _ => false

/-- The type assertion `n.(uast.List)` succeeds. -/
def Node.isList : Node → Bool
  | .list _ => true
  | _ => false

/-- The type assertion `n.(uast.Value)`: it fails on the nil interface, on
objects and on lists. -/
def Node.asValue : Node → Option Value
  | .val v => some v
  | _ => none

/-! ## Go maps and the heap -/

/-- Address of a heap cell. -/
abbrev Addr := Nat

/-- Read `m[k]` in a map given by its entries: `none` stands for `ok == false`. -/
def mapGet {α : Type} : List (String × α) → String → Option α
  | [], _ => none
  | (k', v) :: rest, k => if k' = k then some v else mapGet rest k

/-- The assignment `m[k] = v` on the entries of a map. -/
def mapSet {α : Type} : List (String × α) → String → α → List (String × α)
  | [], k, v => [(k, v)]
  | (k', v') :: rest, k, v =>
    if k' = k then (k', v) :: rest else (k', v') :: mapSet rest k v

/-- What a variable of a `State` holds (a `uast.Node` in the source): an immutable
tree, or the field map of an object under construction, which is a Go map shared
by reference with its frame (`st.SetVar(name, obj.fields)`). -/
inductive Bound where
  | node (n : Node)
  | fields (p : Addr)

/-- The type assertion `x.(uast.Value)` on a bound node. A field map under
construction is a `uast.Object`, not a value. -/
def Bound.asValue : Bound → Option Value
  | .node n => n.asValue
  | .fields _ => none

/-- The struct `procObject`: a frame of the construction stack. -/
structure procObject where
  name : String
  fields : List (String × Node)

/-- Everything a `State` refers to by reference: the `map[string]uast.Node` maps,
the `map[string][]*State` maps and the `procObject` frames allocated so far, each
indexed by its address. -/
structure Heap where
  vars : List (List (String × Bound))
  states : List (List (String × List Addr))
  objs : List procObject

/-- The struct `State`. `vars` and `states` are map references (`none` is the nil
map), `objs` is a slice of `*procObject`. -/
structure State where
  vars : Option Addr
  states : Option Addr
  objs : List Addr

/-- The function `NewState`: `&State{}`. -/
def NewState : State := { vars := none, states := none, objs := [] }

/-- The entries of a `vars` map; reading the nil map gives no entry. -/
def Heap.varsAt (h : Heap) : Option Addr → List (String × Bound)
  | none => []
  | some a => h.vars.getD a []

/-- The entries of a `states` map; reading the nil map gives no entry. -/
def Heap.statesAt (h : Heap) : Option Addr → List (String × List Addr)
  | none => []
  | some a => h.states.getD a []

/-- The allocation `make(map[string]uast.Node)`: a new empty map at a fresh address. -/
def Heap.makeVars (h : Heap) : Heap × Addr :=
  ({ h with vars := h.vars ++ [[]] }, h.vars.length)

/-- The allocation `make(map[string][]*State)`. -/
def Heap.makeStates (h : Heap) : Heap × Addr :=
  ({ h with states := h.states ++ [[]] }, h.states.length)

/-- The assignment `m[k] = v` through a `vars` map reference. Go panics on the nil
map; every assignment in the source is guarded by an allocation, and the nil case
leaves the heap as it is. -/
def Heap.writeVars (h : Heap) (m : Option Addr) (k : String) (v : Bound) : Heap :=
  match m with
  | none => h
  | some a => { h with vars := h.vars.set a (mapSet (h.vars.getD a []) k v) }

/-- The assignment `m[k] = v` through a `states` map reference. -/
def Heap.writeStates (h : Heap) (m : Option Addr) (k : String) (v : List Addr) : Heap :=
  match m with
  | none => h
  | some a => { h with states := h.states.set a (mapSet (h.states.getD a []) k v) }

/-! ## Errors -/

/-- An argument formatted into an `ErrVariableRedeclared` error. -/
inductive ErrArg where
  | bound (b : Bound)
  | states (s : List Addr)

/-- The error values of the package: the kinds raised in `transformer.go`, the
wrappers `errCheck`, `errConstruct` and `errMapping` (which keep their cause), and
`other` for the kinds raised only by operations declared elsewhere. -/
inductive Err where
  | ErrVariableRedeclared (name : String) (cur val : ErrArg)
  | ErrVariableNotDefined (name : String)
  | ErrFewSteps
  | other (kind : String)
  | errCheck (cause : Err)
  | errConstruct (cause : Err)
  | errMapping (name : String) (cause : Err)

/-! ## State -/

/-- The method `State.GetVar`: `none` stands for `ok == false`. -/
def State.GetVar (h : Heap) (st : State) (name : String) : Option Bound :=
  mapGet (h.varsAt st.vars) name

/-- The method `State.MustGetVar`. -/
def State.MustGetVar (h : Heap) (st : State) (name : String) : Bound × Option Err :=
  match st.GetVar h name with
  | none => (.node .nil, some (.ErrVariableNotDefined name))
  | some n => (n, none)

/-- The method `State.SetVar`. -/
def State.SetVar (h : Heap) (st : State) (name : String) (val : Bound) :
    (Heap × State) × Option Err :=
  match mapGet (h.varsAt st.vars) name with
  | none =>
    -- not declared
    let a : Heap × State :=
      if st.vars = none then
        ((h.makeVars).1, { st with vars := some (h.makeVars).2 })
      else (h, st)
    ((a.1.writeVars a.2.vars name val, a.2), none)
  | some cur =>
    match cur.asValue, val.asValue with
    | some v1, some v2 =>
      -- the only exception is two primitive values that are equal
      if v1 = v2 then ((h, st), none)
      else ((h, st), some (.ErrVariableRedeclared name (.bound cur) (.bound val)))
    | _, _ => ((h, st), some (.ErrVariableRedeclared name (.bound cur) (.bound val)))

/-- The method `State.GetStateVar`: `none` stands for `ok == false`. -/
def State.GetStateVar (h : Heap) (st : State) (name : String) : Option (List Addr) :=
  mapGet (h.statesAt st.states) name

/-- The method `State.SetStateVar`. -/
def State.SetStateVar (h : Heap) (st : State) (name : String) (sub : List Addr) :
    (Heap × State) × Option Err :=
  match mapGet (h.statesAt st.states) name with
  | some cur => ((h, st), some (.ErrVariableRedeclared name (.states cur) (.states sub)))
  | none =>
    let a : Heap × State :=
      if st.states = none then
        ((h.makeStates).1, { st with states := some (h.makeStates).2 })
      else (h, st)
    ((a.1.writeStates a.2.states name sub, a.2), none)

/-- The method `State.Clone`. The two maps are copied entry by entry into fresh
maps (left nil when the original has no entry) and the stack slice is copied; the
frames it points to are shared. -/
def State.Clone (h : Heap) (st : State) : Heap × State :=
  let st2 := NewState
  let a : Heap × State :=
    if (h.varsAt st.vars).length ≠ 0 then
      ((h.makeVars).1, { st2 with vars := some (h.makeVars).2 })
    else (h, st2)
  let h1 := (a.1.varsAt st.vars).foldl (fun hh kv => hh.writeVars a.2.vars kv.1 kv.2) a.1
  let b : Heap × State :=
    if (h1.statesAt st.states).length ≠ 0 then
      ((h1.makeStates).1, { a.2 with states := some (h1.makeStates).2 })
    else (h1, a.2)
  let h2 := (b.1.statesAt st.states).foldl
    (fun hh kv => hh.writeStates b.2.states kv.1 kv.2) b.1
  (h2, { b.2 with objs := [] ++ st.objs })

/-- The method `State.ApplyFrom`: `st` is the receiver, `st2` the state merged
into it. -/
def State.ApplyFrom (h : Heap) (st st2 : State) : Heap × State :=
  let a : Heap × State :=
    if (h.varsAt st2.vars).length ≠ 0 ∧ st.vars = none then
      ((h.makeVars).1, { st with vars := some (h.makeVars).2 })
    else (h, st)
  let h1 := (a.1.varsAt st2.vars).foldl
    (fun hh kv =>
      match mapGet (hh.varsAt a.2.vars) kv.1 with
      | some _ => hh
      | none => hh.writeVars a.2.vars kv.1 kv.2) a.1
  let b : Heap × State :=
    if (h1.statesAt st2.states).length ≠ 0 ∧ a.2.states = none then
      ((h1.makeStates).1, { a.2 with states := some (h1.makeStates).2 })
    else (h1, a.2)
  let h2 := (b.1.statesAt st2.states).foldl
    (fun hh kv =>
      match mapGet (hh.statesAt b.2.states) kv.1 with
      | some _ => hh
      | none => hh.writeStates b.2.states kv.1 kv.2) b.1
  let objs :=
    if st2.objs.length > b.2.objs.length then
      b.2.objs ++ st2.objs.drop b.2.objs.length
    else b.2.objs
  (h2, { b.2 with objs := objs })

/-! ## Operations, steps and mappings -/

/-- The interface `Op` (`Sel` and `Mod`). `Check` receives the state by pointer and
may bind variables in it: it returns the state it leaves behind. Both methods may
act on the world `ω` (the heap behind the state, and whatever else an
implementation touches). `isObjectOp` and `isArrayOp` tell whether the type
assertions `op.(ObjectOp)` and `op.(ArrayOp)` succeed. -/
structure Op (ω : Type) where
  isObjectOp : Bool
  isArrayOp : Bool
  Check : State → Node → ω → (State × Bool × Option Err) × ω
  Construct : State → Node → ω → (Node × Option Err) × ω

/-- The struct `Step`. -/
structure Step (ω : Type) where
  Name : String
  Op : Op ω

/-- The struct `Mapping`. -/
structure Mapping (ω : Type) where
  Name : String
  Steps : List (Step ω)

/-- The function `Map`. -/
def Map {ω : Type} (name : String) (src dst : Op ω) : Mapping ω :=
  { Name := name, Steps := [{ Name := "src", Op := src }, { Name := "dst", Op := dst }] }

/-- The zero value of `Step` that `make([]Step, n)` fills a slice with: the empty
name and the nil `Op`, whose methods cannot be called. -/
def Step.zero {ω : Type} : Step ω :=
  { Name := ""
    Op :=
      { isObjectOp := false
        isArrayOp := false
        Check := fun st _ w => ((st, false, some (.other "nil Op")), w)
        Construct := fun _ _ w => ((.nil, some (.other "nil Op")), w) } }

/-- The method `Mapping.Reverse`: a fresh slice of `n` steps, in which slot
`n-1-i` receives step `i` of `m`. -/
def Mapping.Reverse {ω : Type} (m : Mapping ω) : Mapping ω :=
  let n := m.Steps.length
  let steps := List.replicate n (Step.zero : Step ω)
  let steps := m.Steps.enum.foldl (fun acc is => acc.set (n - 1 - is.1) is.2) steps
  { m with Steps := steps }

/-! ## Tree traversal -/

mutual
/-- Modelled from the spec: the traversal `uast.Apply`, declared in package `uast`.
It visits every object, list and value of the tree, children before their parent
and in order, and calls the callback on each; a child whose visit reports a change
is replaced in a freshly built parent, a callback answering `changed = false`
leaves the node as it is, and the call reports whether any node changed. On the
nil node, which holds nothing to visit, it returns at once: the callback is not
called. The callback is a closure: `σ` is the state it captures. -/
def Apply {σ : Type} (apply : Node → σ → (Node × Bool) × σ) :
    Node → σ → (Node × Bool) × σ
  | .obj fs, s =>
    let r := ApplyFields apply fs s
    let root := Node.obj r.1.1
    let c := apply root r.2
    if c.1.2 then ((c.1.1, true), c.2) else ((root, r.1.2), c.2)
  | .list es, s =>
    let r := ApplyElems apply es s
    let root := Node.list r.1.1
    let c := apply root r.2
    if c.1.2 then ((c.1.1, true), c.2) else ((root, r.1.2), c.2)
  | .nil, s => ((.nil, false), s)
  | .val v, s =>
    let c := apply (.val v) s
    if c.1.2 then ((c.1.1, true), c.2) else ((.val v, false), c.2)
/-- The visit of the fields of an object, in order. -/
def ApplyFields {σ : Type} (apply : Node → σ → (Node × Bool) × σ) :
    List (String × Node) → σ → (List (String × Node) × Bool) × σ
  | [], s => (([], false), s)
  | (k, v) :: rest, s =>
    let r := Apply apply v s
    let rs := ApplyFields apply rest r.2
    (((k, if r.1.2 then r.1.1 else v) :: rs.1.1, r.1.2 || rs.1.2), rs.2)
/-- The visit of the elements of a list, in order. -/
def ApplyElems {σ : Type} (apply : Node → σ → (Node × Bool) × σ) :
    List Node → σ → (List Node × Bool) × σ
  | [], s => (([], false), s)
  | v :: rest, s =>
    let r := Apply apply v s
    let rs := ApplyElems apply rest r.2
    (((if r.1.2 then r.1.1 else v) :: rs.1.1, r.1.2 || rs.1.2), rs.2)
end

/-! ## One pass and the step chain -/

/-- The guard at the head of the callback of `applyMap`: `true` when the node is
returned at once, before any `Check`. A nil node is never skipped. -/
def applyMap.skip {ω : Type} (src : Op ω) (n : Node) : Bool :=
  match n with
  | .nil => false
  | _ =>
    if src.isObjectOp then !n.isObject
    else if src.isArrayOp then !n.isList
    else false

/-- The callback that `applyMap` hands to `uast.Apply`. It captures the slice `errs`
and, through the two operations, the world. -/
def applyMap.visit {ω : Type} (src dst : Op ω) (n : Node) (s : List Err × ω) :
    (Node × Bool) × (List Err × ω) :=
  if applyMap.skip src n then ((n, false), s)
  else
    let st := NewState
    let c := src.Check st n s.2
    match c.1.2.2 with
    | some err => ((n, false), (s.1 ++ [Err.errCheck err], c.2))
    | none =>
      if !c.1.2.1 then ((n, false), (s.1, c.2))
      else
        let k := dst.Construct c.1.1 .nil c.2
        match k.1.2 with
        | some err => ((n, false), (s.1 ++ [Err.errConstruct err], k.2))
        | none => ((k.1.1, true), (s.1, k.2))

/-- The function `applyMap`: one pass of a matcher and a constructor over a tree. -/
def applyMap {ω : Type} (src dst : Op ω) (n : Node) (w : ω) : (Node × Option Err) × ω :=
  let r := Apply (applyMap.visit src dst) n ([], w)
  let first : Option Err := r.2.1.head?
  if r.1.2 then ((r.1.1, first), r.2.2) else ((n, first), r.2.2)

/-- The loop of `Mapping.Do`, on the variables `steps`, `n` and `err`. -/
def Mapping.Do.loop {ω : Type} (name : String) :
    List (Step ω) → Node → Option Err → ω → (Node × Option Err) × ω
  | src :: dst :: rest, n, _, w =>
    let r := applyMap src.Op dst.Op n w
    match r.1.2 with
    | some err => ((r.1.1, some (Err.errMapping name err)), r.2)
    | none => Mapping.Do.loop name (dst :: rest) r.1.1 none r.2
  | _, n, err, w => ((n, err), w)

/-- The method `Mapping.Do`. -/
def Mapping.Do {ω : Type} (m : Mapping ω) (n : Node) (w : ω) : (Node × Option Err) × ω :=
  if m.Steps.length ≤ 1 then ((n, some Err.ErrFewSteps), w)
  else Mapping.Do.loop m.Name m.Steps n none w

/-! ## Reference definitions used to state the properties -/

/-- A primitive leaf in the wording of the specification: a string, an integer, a
boolean or null. -/
def Bound.isLeaf : Bound → Bool
  | .node .nil => true
  | .node (.val _) => true
  | _ => false

/-- An Object or a List: a tree that is one, or a field map under construction. -/
def Bound.isObjectOrList : Bound → Bool
  | .node (.obj _) => true
  | .node (.list _) => true
  | .fields _ => true
  | _ => false

mutual
/-- The nodes of a tree, children before their parent and in order. -/
def Node.nodes : Node → List Node
  | .obj fs => Node.nodesFields fs ++ [.obj fs]
  | .list es => Node.nodesElems es ++ [.list es]
  | .nil => [.nil]
  | .val v => [.val v]
/-- The nodes below the fields of an object. -/
def Node.nodesFields : List (String × Node) → List Node
  | [] => []
  | (_, v) :: rest => v.nodes ++ Node.nodesFields rest
/-- The nodes below the elements of a list. -/
def Node.nodesElems : List Node → List Node
  | [] => []
  | v :: rest => v.nodes ++ Node.nodesElems rest
end

/-- The step chain in the words of the specification: the passes of a list of
windows `(matcher, constructor)`, each on the tree the previous one produced,
up to the first pass that returns an error. -/
def runPasses {ω : Type} (name : String) :
    List (Step ω × Step ω) → Node → ω → (Node × Option Err) × ω
  | [], n, w => ((n, none), w)
  | sd :: rest, n, w =>
    let r := applyMap sd.1.Op sd.2.Op n w
    match r.1.2 with
    | some err => ((r.1.1, some (Err.errMapping name err)), r.2)
    | none => runPasses name rest r.1.1 r.2

/-- The windows of width two of a step list: `(s0,s1), (s1,s2), ...`. -/
def windows {ω : Type} (steps : List (Step ω)) : List (Step ω × Step ω) :=
  steps.zip steps.tail

mutual
/-- A traversal in the order of `Apply` that stops at the first callback that
fails, and returns its error. -/
def ApplyUntil {σ : Type} (apply : Node → σ → Except Err ((Node × Bool) × σ)) :
    Node → σ → Except Err ((Node × Bool) × σ)
  | .obj fs, s =>
    match ApplyUntilFields apply fs s with
    | .error e => .error e
    | .ok r =>
      match apply (Node.obj r.1.1) r.2 with
      | .error e => .error e
      | .ok c => if c.1.2 then .ok ((c.1.1, true), c.2) else .ok ((Node.obj r.1.1, r.1.2), c.2)
  | .list es, s =>
    match ApplyUntilElems apply es s with
    | .error e => .error e
    | .ok r =>
      match apply (Node.list r.1.1) r.2 with
      | .error e => .error e
      | .ok c => if c.1.2 then .ok ((c.1.1, true), c.2) else .ok ((Node.list r.1.1, r.1.2), c.2)
  | .nil, s => .ok ((.nil, false), s)
  | .val v, s =>
    match apply (.val v) s with
    | .error e => .error e
    | .ok c => if c.1.2 then .ok ((c.1.1, true), c.2) else .ok ((.val v, false), c.2)
/-- The fields of an object, in order, up to the first failure. -/
def ApplyUntilFields {σ : Type} (apply : Node → σ → Except Err ((Node × Bool) × σ)) :
    List (String × Node) → σ → Except Err ((List (String × Node) × Bool) × σ)
  | [], s => .ok (([], false), s)
  | (k, v) :: rest, s =>
    match ApplyUntil apply v s with
    | .error e => .error e
    | .ok r =>
      match ApplyUntilFields apply rest r.2 with
      | .error e => .error e
      | .ok rs => .ok (((k, if r.1.2 then r.1.1 else v) :: rs.1.1, r.1.2 || rs.1.2), rs.2)
/-- The elements of a list, in order, up to the first failure. -/
def ApplyUntilElems {σ : Type} (apply : Node → σ → Except Err ((Node × Bool) × σ)) :
    List Node → σ → Except Err ((List Node × Bool) × σ)
  | [], s => .ok (([], false), s)
  | v :: rest, s =>
    match ApplyUntil apply v s with
    | .error e => .error e
    | .ok r =>
      match ApplyUntilElems apply rest r.2 with
      | .error e => .error e
      | .ok rs => .ok (((if r.1.2 then r.1.1 else v) :: rs.1.1, r.1.2 || rs.1.2), rs.2)
end

/-- One visit of a pass that fails as soon as `Check` or `Construct` returns an
error: the error is wrapped as a check or a construct error around its cause. -/
def visitUntil {ω : Type} (src dst : Op ω) (n : Node) (w : ω) :
    Except Err ((Node × Bool) × ω) :=
  if applyMap.skip src n then .ok ((n, false), w)
  else
    match (src.Check NewState n w).1.2.2 with
    | some err => .error (Err.errCheck err)
    | none =>
      if !(src.Check NewState n w).1.2.1 then .ok ((n, false), (src.Check NewState n w).2)
      else
        match (dst.Construct (src.Check NewState n w).1.1 .nil (src.Check NewState n w).2).1.2 with
        | some err => .error (Err.errConstruct err)
        | none =>
          .ok (((dst.Construct (src.Check NewState n w).1.1 .nil (src.Check NewState n w).2).1.1, true),
            (dst.Construct (src.Check NewState n w).1.1 .nil (src.Check NewState n w).2).2)

/-- The first error that a pass meets in traversal order, if it meets one. -/
def firstError {ω : Type} (src dst : Op ω) (n : Node) (w : ω) : Option Err :=
  match ApplyUntil (visitUntil src dst) n w with
  | .error e => some e
  | .ok _ => none

/-- A callback `f` that logs errors tracks a callback `g` that fails: where `g`
succeeds `f` does the same and leaves the log alone, and where `g` fails `f` adds
that error at the end of the log. -/
def Tracks {ω : Type} (f : Node → List Err × ω → (Node × Bool) × (List Err × ω))
    (g : Node → ω → Except Err ((Node × Bool) × ω)) : Prop :=
  ∀ (n : Node) (errs : List Err) (w : ω),
    (∀ c, g n w = .ok c → f n (errs, w) = (c.1, (errs, c.2))) ∧
    (∀ e, g n w = .error e → (f n (errs, w)).2.1 = errs ++ [e])


/-! ## Example inputs -/

/-- A matcher on the unit world: it matches the string `"a"`, fails on the string
`"b"` and matches nothing else. -/
def exSrc : Op Unit :=
  { isObjectOp := false
    isArrayOp := false
    Check := fun st n w =>
      match n with
      | .val (.str "a") => ((st, true, none), w)
      | .val (.str "b") => ((st, false, some (.other "boom")), w)
      | _ => ((st, false, none), w)
    Construct := fun _ _ w => ((.nil, none), w) }

/-- A constructor on the unit world: it builds the string `"z"`. -/
def exDst : Op Unit :=
  { isObjectOp := false
    isArrayOp := false
    Check := fun st _ w => ((st, false, none), w)
    Construct := fun _ _ w => ((.val (.str "z"), none), w) }

/-- The list `["a", "b"]`. -/
def exTree : Node := .list [.val (.str "a"), .val (.str "b")]

/-- The list `["a", "c"]`. -/
def exTreeOk : Node := .list [.val (.str "a"), .val (.str "c")]

/-- A mapping with a single step. -/
def exOneStep : Mapping Unit := { Name := "m", Steps := [{ Name := "src", Op := exSrc }] }

/-- A heap with one `vars` map, in which `x` is bound to the nil node and `y` to
the integer 1. -/
def exHeap : Heap :=
  { vars := [[("x", .node .nil), ("y", .node (.val (.int 1)))]], states := [], objs := [] }

/-- A state whose `vars` map is the map of `exHeap`. -/
def exState : State := { vars := some 0, states := none, objs := [] }

/-! ## Predicates on states and call sequences -/

/-- The map references of a state point into the heap. -/
def State.inHeap (h : Heap) (st : State) : Prop :=
  (∀ a ∈ st.vars, a < h.vars.length) ∧
  (∀ a ∈ st.states, a < h.states.length)

instance State.inHeap.decide (h : Heap) (st : State) : Decidable (st.inHeap h) := by
  unfold State.inHeap
  infer_instance

/-- The maps of a state are maps: no key occurs twice among their entries. -/
def State.keysDistinct (h : Heap) (st : State) : Prop :=
  ((h.varsAt st.vars).map Prod.fst).Nodup ∧ ((h.statesAt st.states).map Prod.fst).Nodup

instance State.keysDistinct.decide (h : Heap) (st : State) :
    Decidable (st.keysDistinct h) := by
  unfold State.keysDistinct
  infer_instance

/-- Two states whose map references point into the heap and share no map. -/
def State.apart (h : Heap) (x y : State) : Prop :=
  x.inHeap h ∧ y.inHeap h ∧
  (∀ a ∈ x.vars, y.vars ≠ some a) ∧
  (∀ a ∈ x.states, y.states ≠ some a)

/-- A call of `SetVar` or of `SetStateVar`, with its arguments. -/
inductive Call where
  | SetVar (name : String) (val : Bound)
  | SetStateVar (name : String) (sub : List Addr)

/-- The heap and the state after one call on the state; the error that the call
returns is dropped. -/
def State.call (h : Heap) (st : State) : Call → Heap × State
  | .SetVar name val => (st.SetVar h name val).1
  | .SetStateVar name sub => (st.SetStateVar h name sub).1

/-- The heap and the state after a sequence of calls on the state. -/
def State.calls (h : Heap) (st : State) : List Call → Heap × State
  | [] => (h, st)
  | c :: rest => State.calls (st.call h c).1 (st.call h c).2 rest

/-! ## More example inputs -/

/-- A matcher on the unit world that fails at `"a"` with one error and at `"b"`
with another. -/
def exFailTwice : Op Unit :=
  { isObjectOp := false
    isArrayOp := false
    Check := fun st n w =>
      match n with
      | .val (.str "a") => ((st, false, some (.other "first")), w)
      | .val (.str "b") => ((st, false, some (.other "second")), w)
      | _ => ((st, false, none), w)
    Construct := fun _ _ w => ((.nil, none), w) }

/-- A heap with two `vars` maps and two `states` maps. -/
def exHeap2 : Heap :=
  { vars := [[("x", .node (.val (.int 1)))],
             [("x", .node (.val (.int 2))), ("y", .node (.val (.int 3)))]]
    states := [[("s", [7])], [("t", [8])]]
    objs := [] }

/-- A state on the first maps of `exHeap2`. -/
def exParent : State := { vars := some 0, states := some 0, objs := [] }

/-- A state on the second maps of `exHeap2`. -/
def exChild : State := { vars := some 1, states := some 1, objs := [5] }

/-- A mapping with three steps on the unit world. -/
def exThree : Mapping Unit :=
  { Name := "m"
    Steps := [{ Name := "s0", Op := exSrc }, { Name := "s1", Op := exDst },
              { Name := "s2", Op := exDst }] }

/-! ## Pipelines, transform functions and the construction stack -/

/-- The function `Transformers`: `out` starts as the nil slice and every slice of
`arr` is appended to it in turn. The interface `Transformer` is the parameter `τ`. -/
def Transformers {τ : Type} (arr : List (List τ)) : List τ :=
  arr.foldl (fun out a => out ++ a) []

/-- The variable `Native` of the skeleton normalizer. The stages `ObjectToNode{...}`
and `RolesDedup{}` are declared in other packages and `Annotations` is the rule
catalog of the driver: the three are parameters. -/
def Native {τ : Type} (ObjectToNode : τ) (Annotations : List τ) (RolesDedup : τ) : List τ :=
  Transformers [[ObjectToNode], Annotations, [RolesDedup]]

/-- The type `TransformFunc`: a function from a node to `(node, ok, error)`, with
the effects it may have on the world. -/
abbrev TransformFunc (ω : Type) := Node → ω → (Node × Bool × Option Err) × ω

/-- The callback that `TransformFunc.Do` hands to `uast.Apply`. It captures the
variable `last` and, through `f`, the world. -/
def TransformFunc.Do.visit {ω : Type} (f : TransformFunc ω) (n : Node)
    (s : Option Err × ω) : (Node × Bool) × (Option Err × ω) :=
  let r := f n s.2
  match r.1.2.2 with
  | some err => ((n, false), (some err, r.2))
  | none =>
    if !r.1.2.1 then ((n, false), (s.1, r.2))
    else ((r.1.1, r.1.2.1), (s.1, r.2))

/-- The method `TransformFunc.Do`. -/
def TransformFunc.Do {ω : Type} (f : TransformFunc ω) (n : Node) (w : ω) :
    (Node × Option Err) × ω :=
  let r := Apply (TransformFunc.Do.visit f) n (none, w)
  if r.1.2 then ((r.1.1, r.2.1), r.2.2) else ((n, r.2.1), r.2.2)

/-- The panics of the package. -/
inductive Panic where
  | noActiveObjects
  | stackBroken (expected got : String)
  | unexpectedRoles
  | duplicateField (name : String)

/-- The frame behind a `*procObject`. An address outside the heap reads as the
zero frame; no state built by the methods below holds one. -/
def Heap.objAt (h : Heap) (p : Addr) : procObject :=
  h.objs.getD p { name := "", fields := [] }

/-- The allocation `&procObject{name: name, fields: make(uast.Object)}`. -/
def Heap.newObject (h : Heap) (name : String) : Heap × Addr :=
  ({ h with objs := h.objs ++ [{ name := name, fields := [] }] }, h.objs.length)

/-- The method `State.StartObject`. The second component is the function it
returns, given by the name that the closure captures (`none` is the nil
function); calling it is `State.finish` with that name. -/
def State.StartObject (h : Heap) (st : State) (name : String) :
    (Heap × State) × Option String × Option Err :=
  let obj := h.newObject name
  let a : (Heap × State) × Option Err :=
    if name ≠ "" then st.SetVar obj.1 name (.fields obj.2) else ((obj.1, st), none)
  match a.2 with
  | some err => (a.1, none, some err)
  | none => ((a.1.1, { a.1.2 with objs := a.1.2.objs ++ [obj.2] }), some name, none)

/-- The closure that `State.StartObject` returns, for the name it captured. The
stack is cut before the name of the popped frame is compared. -/
def State.finish (h : Heap) (st : State) (name : String) : State × Option Panic :=
  if st.objs.length = 0 then (st, some .noActiveObjects)
  else
    let i := st.objs.length - 1
    let cur := st.objs.getD i 0
    let st1 : State := { st with objs := st.objs.take i }
    if (h.objAt cur).name ≠ name then (st1, some (.stackBroken name (h.objAt cur).name))
    else (st1, none)

/-- The method `State.UseKey`: `cur.fields[key] = val` on the frame on top of the
stack, through its pointer. -/
def State.UseKey (h : Heap) (st : State) (key : String) (val : Node) : Heap :=
  if st.objs.length = 0 then h
  else
    let cur := st.objs.getD (st.objs.length - 1) 0
    let obj : procObject :=
      { name := (h.objAt cur).name, fields := mapSet (h.objAt cur).fields key val }
    { h with objs := h.objs.set cur obj }

/-- The node that a bound value stands for: the tree itself, or the object made
of the fields that its frame holds at the moment. -/
def Heap.nodeOf (h : Heap) : Bound → Node
  | .node n => n
  | .fields p => .obj (h.objAt p).fields

/-- A callback with the visits of `TransformFunc.Do` that keeps every error, in
the order in which the traversal meets them. -/
def TransformFunc.errors.visit {ω : Type} (f : TransformFunc ω) (n : Node)
    (s : List Err × ω) : (Node × Bool) × (List Err × ω) :=
  let r := f n s.2
  match r.1.2.2 with
  | some err => ((n, false), (s.1 ++ [err], r.2))
  | none =>
    if !r.1.2.1 then ((n, false), (s.1, r.2))
    else ((r.1.1, r.1.2.1), (s.1, r.2))

/-- The errors that `f` returns during the traversal of a tree, in traversal
order. -/
def TransformFunc.errors {ω : Type} (f : TransformFunc ω) (n : Node) (w : ω) : List Err :=
  (Apply (TransformFunc.errors.visit f) n ([], w)).2.1

/-- A transform function on the unit world that fails at `"a"` with one error and
at `"b"` with another. -/
def exFunc : TransformFunc Unit := fun n w =>
  match n with
  | .val (.str "a") => ((n, false, some (.other "first")), w)
  | .val (.str "b") => ((n, false, some (.other "second")), w)
  | _ => ((n, false, none), w)

/-- The list `["a", nil]`. -/
def exTreeNil : Node := .list [.val (.str "a"), .nil]

/-- An Object pattern on a world that counts the calls of `Check` at nodes that
are neither nil nor objects. At the nil node its `Check` fails. -/
def exObjOp : Op Nat :=
  { isObjectOp := true
    isArrayOp := false
    Check := fun st n w =>
      match n with
      | .obj _ => ((st, false, none), w)
      | .nil => ((st, false, some (.other "expected object")), w)
      | _ => ((st, false, none), w + 1)
    Construct := fun _ _ w => ((.nil, none), w) }

/-- How a sequence of calls ends: normally, on an error that a call returned, or
in a panic. -/
inductive Outcome where
  | done
  | failed (e : Err)
  | panicked (p : Panic)

/-- A properly nested use of the construction stack: `StartObject(name)`, then the
nested uses in order, then the call of the function that `StartObject` returned. -/
inductive Nest where
  | node (name : String) (inner : List Nest)

mutual
/-- The run of a nested use of the stack on a state. It stops at the first
`StartObject` that returns an error, and at the first panic. -/
def Nest.run : Nest → Heap → State → (Heap × State) × Outcome
  | .node name inner, h, st =>
    let r := st.StartObject h name
    match r.2.2 with
    | some e => (r.1, .failed e)
    | none =>
      let c := Nest.runAll inner r.1.1 r.1.2
      match c.2 with
      | .done =>
        let f := c.1.2.finish c.1.1 name
        match f.2 with
        | some p => ((c.1.1, f.1), .panicked p)
        | none => ((c.1.1, f.1), .done)
      | .failed e => (c.1, .failed e)
      | .panicked p => (c.1, .panicked p)
/-- The run of nested uses of the stack one after the other. -/
def Nest.runAll : List Nest → Heap → State → (Heap × State) × Outcome
  | [], h, st => ((h, st), .done)
  | x :: rest, h, st =>
    let r := x.run h st
    match r.2 with
    | .done => Nest.runAll rest r.1.1 r.1.2
    | .failed e => (r.1, .failed e)
    | .panicked p => (r.1, .panicked p)
end

/-- A heap with one frame, named `f`, and a `vars` map in which `f` is bound to the
field map of that frame. -/
def exFrameHeap : Heap :=
  { vars := [[("f", .fields 0)]], states := [], objs := [{ name := "f", fields := [] }] }

/-- A state on `exFrameHeap` with its frame open. -/
def exFrameState : State := { vars := some 0, states := none, objs := [0] }

/-- The nested use `start a; start ""; finish; start b; finish; finish`. -/
def exNest : Nest := .node "a" [.node "" [], .node "b" []]

/-- A call that may bind a variable or a state variable of a state, with its
arguments. -/
inductive Action where
  | SetVar (name : String) (val : Bound)
  | SetStateVar (name : String) (sub : List Addr)
  | ApplyFrom (st2 : State)
  | StartObject (name : String)

/-- The heap and the state after one such call on the state; what the call
returns is dropped. -/
def State.act (h : Heap) (st : State) : Action → Heap × State
  | .SetVar name val => (st.SetVar h name val).1
  | .SetStateVar name sub => (st.SetStateVar h name sub).1
  | .ApplyFrom st2 => st.ApplyFrom h st2
  | .StartObject name => (st.StartObject h name).1

/-- The heap and the state after a sequence of such calls on the state. -/
def State.acts (h : Heap) (st : State) : List Action → Heap × State
  | [] => (h, st)
  | a :: rest => State.acts (st.act h a).1 (st.act h a).2 rest

/-! ## Role-annotation helpers (`ast.go`) -/

/-- Modelled from the spec: the reserved field name of the type tag, declared in
package `uast` (`uast.KeyType`). -/
def KeyType : String := "@type"

/-- Modelled from the spec: the reserved field name of the role list, declared in
package `uast` (`uast.KeyRoles`). -/
def KeyRoles : String := "@role"

/-- Modelled from the spec: a role, an opaque tag of the package `role`. The
helpers only use its `String()`, which is the field `name`. -/
structure Role where
  name : String

/-- Modelled from the spec: the operations of `ops.go` that the helpers of `ast.go`
build, as terms. `ext` is any other operation, given by what its `Construct`
returns. -/
inductive OpExpr where
  | Var (name : String)
  | Is (v : Node)
  | Arr (items : List OpExpr)
  | AppendArr (items : List OpExpr)
  | Append (op : OpExpr) (items : List OpExpr)
  | NotEmpty (op : OpExpr)
  | If (cond : String) (thenOp elseOp : OpExpr)
  | ext (construct : Heap → State → Node × Option Err)

/-- Modelled from the spec: the operation `String(s)`, which is `Is` of the string
value. -/
def OpExpr.String (s : String) : OpExpr := .Is (.val (.str s))

/-- The elements of a constructed node that has to be a list. -/
def Node.elems : Node → Except Err (List Node)
  | .list es => .ok es
  | _ => .error (.other "ErrExpectedList")

/-- The concatenation of constructed nodes that have to be lists. -/
def Node.concat : List Node → Except Err (List Node)
  | [] => .ok []
  | n :: rest =>
    match n.elems with
    | .error e => .error e
    | .ok es =>
      match Node.concat rest with
      | .error e => .error e
      | .ok r => .ok (es ++ r)

mutual
/-- Modelled from the spec: what `Construct` of an operation of `ops.go` returns on
a state. `Var` emits the bound value and fails with `ErrVariableNotDefined` if
there is none; `Is` emits its value; an array emits the list of what its elements
construct; an append concatenates, in the order of its arguments, the lists that
they construct; `NotEmpty` fails if the list is empty; `If` reads the condition
variable, the flag that the check of an optional field binds to whether the field
is there: it takes its first branch if the flag holds `true` and its second branch
if it holds `false`, and it fails with `ErrVariableNotDefined` if the flag is not
bound and with `ErrUnexpectedType` if it holds anything but a boolean. On a flag
that holds `true` this is the first branch of §4.2, which words the condition as
the flag being bound. -/
def OpExpr.Construct (h : Heap) (st : State) : OpExpr → Except Err Node
  | .Var name =>
    match st.MustGetVar h name with
    | (_, some e) => .error e
    | (b, none) => .ok (h.nodeOf b)
  | .Is v => .ok v
  | .Arr items =>
    match OpExpr.ConstructAll h st items with
    | .error e => .error e
    | .ok ns => .ok (.list ns)
  | .AppendArr items =>
    match OpExpr.ConstructAll h st items with
    | .error e => .error e
    | .ok ns =>
      match Node.concat ns with
      | .error e => .error e
      | .ok es => .ok (.list es)
  | .Append op items =>
    match OpExpr.Construct h st op with
    | .error e => .error e
    | .ok n =>
      match OpExpr.ConstructAll h st items with
      | .error e => .error e
      | .ok ns =>
        match Node.concat (n :: ns) with
        | .error e => .error e
        | .ok es => .ok (.list es)
  | .NotEmpty op =>
    match OpExpr.Construct h st op with
    | .error e => .error e
    | .ok (.list []) => .error (.other "empty")
    | .ok n => .ok n
  | .If cond thenOp elseOp =>
    match st.MustGetVar h cond with
    | (_, some e) => .error e
    | (.node (.val (.bool true)), none) => OpExpr.Construct h st thenOp
    | (.node (.val (.bool false)), none) => OpExpr.Construct h st elseOp
    | (_, none) => .error (.other "ErrUnexpectedType")
  | .ext construct =>
    match construct h st with
    | (_, some e) => .error e
    | (n, none) => .ok n
/-- What the operations of a list construct, in order. -/
def OpExpr.ConstructAll (h : Heap) (st : State) : List OpExpr → Except Err (List Node)
  | [] => .ok []
  | op :: rest =>
    match OpExpr.Construct h st op with
    | .error e => .error e
    | .ok n =>
      match OpExpr.ConstructAll h st rest with
      | .error e => .error e
      | .ok ns => .ok (n :: ns)
end

/-- The function `Roles`. -/
def Roles (roles : List Role) : OpExpr :=
  .Arr (roles.map fun r => .Is (.val (.str r.name)))

/-- The function `AppendRoles`. -/
def AppendRoles (old : OpExpr) (roles : List Role) : OpExpr :=
  if roles.length = 0 then old else .AppendArr [old, Roles roles]

/-- Modelled from the spec: the struct `Field` of `ops.go`, a named field of an
object pattern; `Optional` is the name of its flag variable, empty if the field is
required. -/
structure Field where
  Name : String
  Op : OpExpr
  Optional : String

/-- The function `RolesFieldOp`; `op` is `none` for the nil `ArrayOp`. -/
def RolesFieldOp (vr : String) (op : Option OpExpr) (roles : List Role) : Field :=
  if roles.length = 0 ∧ op.isNone then
    { Name := KeyRoles, Op := .Var vr, Optional := vr ++ "_exists" }
  else
    let rop : OpExpr :=
      match op with
      | some o => if roles.length ≠ 0 then AppendRoles o roles else o
      | none => Roles roles
    { Name := KeyRoles
      Op := .If (vr ++ "_exists") (.Append (.NotEmpty (.Var vr)) [rop]) rop
      Optional := "" }

/-- Modelled from the spec: an object pattern (`ObjectOp` of `ops.go`): the fields
of an object, or a named part around an object pattern. -/
inductive ObjectOp where
  | Fields (fields : List Field)
  | Part (name : String) (sub : ObjectOp)

/-- Modelled from the spec: the method `Object()` of an object pattern, its fields;
a part delegates to the pattern it wraps. -/
def ObjectOp.Object : ObjectOp → List Field
  | .Fields fields => fields
  | .Part _ sub => sub.Object

/-- Modelled from the spec: the method `GetField` of the fields of an object
pattern (§4.2: named field sub-operations), the first field of that name; `none`
stands for `ok == false`. -/
def GetField : List Field → String → Option Field
  | [], _ => none
  | f :: rest, k => if f.Name = k then some f else GetField rest k

/-- Modelled from the spec: the method `SetFieldObj` of the fields of an object
pattern, which adds a field after the fields that the pattern holds. A field
written into a pattern that already holds one of that name is the duplicate-field
error of the spec (§7; the kind `ErrDuplicateField` is declared in
`transformer.go`); the method returns no error, so it panics with it. -/
def SetFieldObj (fields : List Field) (f : Field) : Except Panic (List Field) :=
  match GetField fields f.Name with
  | some _ => .error (.duplicateField f.Name)
  | none => .ok (fields ++ [f])

/-- Modelled from the spec: the method `SetField`, which adds the required field
of that name and operation. -/
def SetField (fields : List Field) (k : String) (v : OpExpr) : Except Panic (List Field) :=
  SetFieldObj fields { Name := k, Op := v, Optional := "" }

/-- The function `ASTObjectRight`; `rop` is `none` for the nil `ArrayOp`. -/
def ASTObjectRight (typ : String) (norm : ObjectOp) (rop : Option OpExpr)
    (roles : List Role) : Except Panic ObjectOp :=
  let b := norm.Object
  match GetField b KeyRoles with
  | some _ => .error .unexpectedRoles
  | none =>
    match SetField b KeyType (OpExpr.String typ) with
    | .error p => .error p
    | .ok b =>
      match SetFieldObj b (RolesFieldOp (typ ++ "_roles") rop roles) with
      | .error p => .error p
      | .ok b => .ok (.Part "_" (.Fields b))

/-- The string node of a role. -/
def Role.node (r : Role) : Node := .val (.str r.name)

/-- The role `Identifier`. -/
def exIdentifier : Role := { name := "Identifier" }

/-- The role `Binary`. -/
def exBinary : Role := { name := "Binary" }

/-- An object pattern with one field `Name`, bound to the variable `name`. -/
def exPattern : ObjectOp := .Fields [{ Name := "Name", Op := .Var "name", Optional := "" }]

/-- A heap with one `vars` map, in which the roles variable of `T` holds the list
`["Old"]` and its flag variable holds `true`. -/
def exRolesHeap : Heap :=
  { vars := [[("T_roles", .node (.list [.val (.str "Old")])),
              ("T_roles_exists", .node (.val (.bool true)))]]
    states := []
    objs := [] }

/-! ## Lemmas -/

theorem foldl_set_enumFrom {α : Type} (n : Nat) (xs : List α) :
    ∀ (k : Nat) (acc : List α), k + xs.length ≤ n → acc.length = n →
      ((xs.enumFrom k).foldl (fun acc is => acc.set (n - 1 - is.1) is.2) acc).length = n ∧
      ∀ j, j < n →
        ((xs.enumFrom k).foldl (fun acc is => acc.set (n - 1 - is.1) is.2) acc)[j]? =
          if k ≤ n - 1 - j ∧ n - 1 - j < k + xs.length then xs[n - 1 - j - k]? else acc[j]? := by
  induction xs with
  | nil =>
    intro k acc _ hacc
    refine ⟨by simpa using hacc, ?_⟩
    intro j _
    have : ¬ (k ≤ n - 1 - j ∧ n - 1 - j < k + ([] : List α).length) := by
      simp only [List.length_nil]; omega
    rw [if_neg this]
    rfl
  | cons x t ih =>
    intro k acc hk hacc
    simp only [List.length_cons] at hk
    have hstep := ih (k + 1) (acc.set (n - 1 - k) x) (by omega) (by simpa using hacc)
    simp only [List.enumFrom_cons, List.foldl_cons]
    refine ⟨hstep.1, ?_⟩
    intro j hj
    rw [hstep.2 j hj]
    by_cases h1 : k + 1 ≤ n - 1 - j ∧ n - 1 - j < k + 1 + t.length
    · have h2 : k ≤ n - 1 - j ∧ n - 1 - j < k + (x :: t).length := by
        simp only [List.length_cons]; omega
      rw [if_pos h1, if_pos h2]
      have : n - 1 - j - k = (n - 1 - j - (k + 1)) + 1 := by omega
      rw [this, List.getElem?_cons_succ]
    · rw [if_neg h1]
      by_cases h3 : n - 1 - j = k
      · have h2 : k ≤ n - 1 - j ∧ n - 1 - j < k + (x :: t).length := by
          simp only [List.length_cons]; omega
        rw [if_pos h2]
        have e1 : n - 1 - k = j := by omega
        have e2 : n - 1 - j - k = 0 := by omega
        rw [e1, e2, List.getElem?_set_self (by omega)]
        simp
      · have h2 : ¬ (k ≤ n - 1 - j ∧ n - 1 - j < k + (x :: t).length) := by
          simp only [List.length_cons]; omega
        rw [if_neg h2]
        have e1 : n - 1 - k ≠ j := by omega
        rw [List.getElem?_set_ne e1]

theorem Reverse_Steps {ω : Type} (m : Mapping ω) : m.Reverse.Steps = m.Steps.reverse := by
  have h := foldl_set_enumFrom m.Steps.length m.Steps 0
    (List.replicate m.Steps.length (Step.zero : Step ω)) (by simp) (by simp)
  apply List.ext_getElem?
  intro j
  by_cases hj : j < m.Steps.length
  · have := h.2 j hj
    simp only [Mapping.Reverse, List.enum]
    rw [this, List.getElem?_reverse hj]
    have : 0 ≤ m.Steps.length - 1 - j ∧ m.Steps.length - 1 - j < 0 + m.Steps.length := by omega
    rw [if_pos this]
    simp
  · have h1 : m.Reverse.Steps.length = m.Steps.length := h.1
    rw [List.getElem?_eq_none (by omega), List.getElem?_eq_none (by simp; omega)]

theorem loop_eq_runPasses {ω : Type} (name : String) :
    ∀ (steps : List (Step ω)) (n : Node) (w : ω),
      Mapping.Do.loop name steps n none w = runPasses name (windows steps) n w
  | [], n, w => by simp [Mapping.Do.loop, windows, runPasses]
  | [s], n, w => by simp [Mapping.Do.loop, windows, runPasses]
  | s0 :: s1 :: rest, n, w => by
    have ih := loop_eq_runPasses name (s1 :: rest)
    simp only [Mapping.Do.loop, windows, List.tail_cons, List.zip_cons_cons, runPasses]
    cases hr : (applyMap s0.Op s1.Op n w).1.2 with
    | some e => rfl
    | none =>
      simp only []
      rw [ih]
      rfl
theorem loop_error {ω : Type} (name : String) :
    ∀ (steps : List (Step ω)) (n : Node) (w : ω) (e : Err),
      (Mapping.Do.loop name steps n none w).1.2 = some e →
      ∃ (i : Nat) (src dst : Step ω) (ni : Node) (wi : ω) (e1 : Err),
        steps[i]? = some src ∧ steps[i + 1]? = some dst ∧
        Mapping.Do.loop name (steps.take (i + 1)) n none w = ((ni, none), wi) ∧
        applyMap src.Op dst.Op ni wi
          = (((Mapping.Do.loop name steps n none w).1.1, some e1),
              (Mapping.Do.loop name steps n none w).2) ∧
        e = Err.errMapping name e1
  | [], n, w, e, h => by simp [Mapping.Do.loop] at h
  | [s], n, w, e, h => by simp [Mapping.Do.loop] at h
  | s0 :: s1 :: rest, n, w, e, h => by
    have ih := loop_error name (s1 :: rest)
    cases hr : (applyMap s0.Op s1.Op n w).1.2 with
    | some e1 =>
      have hl : Mapping.Do.loop name (s0 :: s1 :: rest) n none w
          = (((applyMap s0.Op s1.Op n w).1.1, some (Err.errMapping name e1)),
              (applyMap s0.Op s1.Op n w).2) := by
        simp only [Mapping.Do.loop, hr]
      refine ⟨0, s0, s1, n, w, e1, by simp, by simp, ?_, ?_, ?_⟩
      · simp [Mapping.Do.loop]
      · rw [hl]
        simp only []
        rw [← hr]
      · rw [hl] at h
        simpa using h.symm
    | none =>
      have hl : Mapping.Do.loop name (s0 :: s1 :: rest) n none w
          = Mapping.Do.loop name (s1 :: rest) (applyMap s0.Op s1.Op n w).1.1 none
              (applyMap s0.Op s1.Op n w).2 := by
        simp only [Mapping.Do.loop, hr]
      rw [hl] at h
      obtain ⟨i, src, dst, ni, wi, e1, h1, h2, h3, h4, h5⟩ := ih _ _ e h
      refine ⟨i + 1, src, dst, ni, wi, e1, by simpa using h1, by simpa using h2, ?_, ?_, h5⟩
      · cases i with
        | zero =>
          simp only [List.take, Mapping.Do.loop, hr]
          simpa [Mapping.Do.loop] using h3
        | succ j =>
          simp only [List.take, Mapping.Do.loop, hr]
          simpa [List.take] using h3
      · rw [hl]; exact h4
mutual
theorem Apply_noop {σ : Type} (f : Node → σ → (Node × Bool) × σ) (J : σ → Prop) :
    ∀ (n : Node) (s : σ),
      (∀ n', n' ∈ n.nodes → ∀ s', J s' → (f n' s').1 = (n', false) ∧ J (f n' s').2) →
      J s → (Apply f n s).1 = (n, false) ∧ J (Apply f n s).2
  | .obj fs, s, hf, hs => by
    have hfs := ApplyFields_noop f J fs s
      (fun n' hn' => hf n' (by simp [Node.nodes, hn'])) hs
    have hroot := hf (.obj fs) (by simp [Node.nodes]) _ hfs.2
    simp only [Apply]
    rw [hfs.1]
    simp only []
    rw [hroot.1]
    simp only [Bool.false_eq_true, if_false]
    exact ⟨trivial, hroot.2⟩
  | .list es, s, hf, hs => by
    have hes := ApplyElems_noop f J es s
      (fun n' hn' => hf n' (by simp [Node.nodes, hn'])) hs
    have hroot := hf (.list es) (by simp [Node.nodes]) _ hes.2
    simp only [Apply]
    rw [hes.1]
    simp only []
    rw [hroot.1]
    simp only [Bool.false_eq_true, if_false]
    exact ⟨trivial, hroot.2⟩
  | .nil, s, _, hs => by
    simp only [Apply]
    exact ⟨trivial, hs⟩
  | .val v, s, hf, hs => by
    have hroot := hf (.val v) (by simp [Node.nodes]) s hs
    simp only [Apply]
    rw [hroot.1]
    simp only [Bool.false_eq_true, if_false]
    exact ⟨trivial, hroot.2⟩
theorem ApplyFields_noop {σ : Type} (f : Node → σ → (Node × Bool) × σ) (J : σ → Prop) :
    ∀ (fs : List (String × Node)) (s : σ),
      (∀ n', n' ∈ Node.nodesFields fs → ∀ s', J s' → (f n' s').1 = (n', false) ∧ J (f n' s').2) →
      J s → (ApplyFields f fs s).1 = (fs, false) ∧ J (ApplyFields f fs s).2
  | [], s, _, hs => by simp [ApplyFields, hs]
  | (k, v) :: rest, s, hf, hs => by
    have h1 := Apply_noop f J v s (fun n' hn' => hf n' (by simp [Node.nodesFields, hn'])) hs
    have h2 := ApplyFields_noop f J rest _
      (fun n' hn' => hf n' (by simp [Node.nodesFields, hn'])) h1.2
    simp only [ApplyFields]
    rw [h1.1, h2.1]
    simp only [Bool.false_eq_true, if_false, Bool.or_self]
    exact ⟨trivial, h2.2⟩
theorem ApplyElems_noop {σ : Type} (f : Node → σ → (Node × Bool) × σ) (J : σ → Prop) :
    ∀ (es : List Node) (s : σ),
      (∀ n', n' ∈ Node.nodesElems es → ∀ s', J s' → (f n' s').1 = (n', false) ∧ J (f n' s').2) →
      J s → (ApplyElems f es s).1 = (es, false) ∧ J (ApplyElems f es s).2
  | [], s, _, hs => by simp [ApplyElems, hs]
  | v :: rest, s, hf, hs => by
    have h1 := Apply_noop f J v s (fun n' hn' => hf n' (by simp [Node.nodesElems, hn'])) hs
    have h2 := ApplyElems_noop f J rest _
      (fun n' hn' => hf n' (by simp [Node.nodesElems, hn'])) h1.2
    simp only [ApplyElems]
    rw [h1.1, h2.1]
    simp only [Bool.false_eq_true, if_false, Bool.or_self]
    exact ⟨trivial, h2.2⟩
end
theorem Tracks.grows {ω : Type} {f : Node → List Err × ω → (Node × Bool) × (List Err × ω)}
    {g : Node → ω → Except Err ((Node × Bool) × ω)} (hfg : Tracks f g)
    (n : Node) (s : List Err × ω) : ∃ d, (f n s).2.1 = s.1 ++ d := by
  obtain ⟨errs, w⟩ := s
  cases hg : g n w with
  | ok c => exact ⟨[], by rw [(hfg n errs w).1 c hg]; simp⟩
  | error e => exact ⟨[e], (hfg n errs w).2 e hg⟩

mutual
theorem Apply_grows {ω : Type} (f : Node → List Err × ω → (Node × Bool) × (List Err × ω))
    (hf : ∀ n s, ∃ d, (f n s).2.1 = s.1 ++ d) :
    ∀ (n : Node) (s : List Err × ω), ∃ d, (Apply f n s).2.1 = s.1 ++ d
  | .obj fs, s => by
    obtain ⟨d1, h1⟩ := ApplyFields_grows f hf fs s
    obtain ⟨d2, h2⟩ := hf (Node.obj (ApplyFields f fs s).1.1) (ApplyFields f fs s).2
    refine ⟨d1 ++ d2, ?_⟩
    simp only [Apply]
    split <;> simp only [h2, h1, List.append_assoc]
  | .list es, s => by
    obtain ⟨d1, h1⟩ := ApplyElems_grows f hf es s
    obtain ⟨d2, h2⟩ := hf (Node.list (ApplyElems f es s).1.1) (ApplyElems f es s).2
    refine ⟨d1 ++ d2, ?_⟩
    simp only [Apply]
    split <;> simp only [h2, h1, List.append_assoc]
  | .nil, s => ⟨[], by simp only [Apply, List.append_nil]⟩
  | .val v, s => by
    obtain ⟨d2, h2⟩ := hf (.val v) s
    refine ⟨d2, ?_⟩
    simp only [Apply]
    split <;> simp only [h2]
theorem ApplyFields_grows {ω : Type} (f : Node → List Err × ω → (Node × Bool) × (List Err × ω))
    (hf : ∀ n s, ∃ d, (f n s).2.1 = s.1 ++ d) :
    ∀ (fs : List (String × Node)) (s : List Err × ω), ∃ d, (ApplyFields f fs s).2.1 = s.1 ++ d
  | [], s => ⟨[], by simp [ApplyFields]⟩
  | (k, v) :: rest, s => by
    obtain ⟨d1, h1⟩ := Apply_grows f hf v s
    obtain ⟨d2, h2⟩ := ApplyFields_grows f hf rest (Apply f v s).2
    exact ⟨d1 ++ d2, by simp only [ApplyFields, h2, h1, List.append_assoc]⟩
theorem ApplyElems_grows {ω : Type} (f : Node → List Err × ω → (Node × Bool) × (List Err × ω))
    (hf : ∀ n s, ∃ d, (f n s).2.1 = s.1 ++ d) :
    ∀ (es : List Node) (s : List Err × ω), ∃ d, (ApplyElems f es s).2.1 = s.1 ++ d
  | [], s => ⟨[], by simp [ApplyElems]⟩
  | v :: rest, s => by
    obtain ⟨d1, h1⟩ := Apply_grows f hf v s
    obtain ⟨d2, h2⟩ := ApplyElems_grows f hf rest (Apply f v s).2
    exact ⟨d1 ++ d2, by simp only [ApplyElems, h2, h1, List.append_assoc]⟩
end

theorem root_tracks {ω : Type} {f : Node → List Err × ω → (Node × Bool) × (List Err × ω)}
    {g : Node → ω → Except Err ((Node × Bool) × ω)} (hfg : Tracks f g)
    (root : Node) (ch : Bool) (errs : List Err) (w : ω) :
    (∀ r, (match g root w with
          | .error e => Except.error e
          | .ok c => if c.1.2 then Except.ok ((c.1.1, true), c.2)
                     else Except.ok ((root, ch), c.2)) = Except.ok r →
        (if (f root (errs, w)).1.2 then (((f root (errs, w)).1.1, true), (f root (errs, w)).2)
         else ((root, ch), (f root (errs, w)).2)) = (r.1, (errs, r.2))) ∧
    (∀ e, (match g root w with
          | .error e => Except.error e
          | .ok c => if c.1.2 then Except.ok ((c.1.1, true), c.2)
                     else Except.ok ((root, ch), c.2)) = Except.error e →
        (if (f root (errs, w)).1.2 then (((f root (errs, w)).1.1, true), (f root (errs, w)).2)
         else ((root, ch), (f root (errs, w)).2)).2.1 = errs ++ [e]) := by
  cases hg : g root w with
  | error e0 =>
    refine ⟨fun r h => by simp at h, fun e h => ?_⟩
    simp only [Except.error.injEq] at h
    subst h
    have := (hfg root errs w).2 e0 hg
    split <;> exact this
  | ok c =>
    have hc := (hfg root errs w).1 c hg
    refine ⟨fun r h => ?_, fun e h => ?_⟩
    · rw [hc]
      simp only [] at h ⊢
      cases hb : c.1.2 with
      | true =>
        simp only [hb, if_true, Except.ok.injEq] at h ⊢
        rw [← h]
      | false =>
        simp only [hb, Bool.false_eq_true, if_false, Except.ok.injEq] at h ⊢
        rw [← h]
    · simp only [] at h
      split at h <;> simp at h

mutual
theorem Apply_tracks {ω : Type} (f : Node → List Err × ω → (Node × Bool) × (List Err × ω))
    (g : Node → ω → Except Err ((Node × Bool) × ω)) (hfg : Tracks f g) :
    ∀ (n : Node) (errs : List Err) (w : ω),
      (∀ r, ApplyUntil g n w = .ok r → Apply f n (errs, w) = (r.1, (errs, r.2))) ∧
      (∀ e, ApplyUntil g n w = .error e → ∃ d, (Apply f n (errs, w)).2.1 = errs ++ e :: d)
  | .obj fs, errs, w => by
    have ih := ApplyFields_tracks f g hfg fs errs w
    simp only [ApplyUntil, Apply]
    cases hU : ApplyUntilFields g fs w with
    | error e0 =>
      refine ⟨fun r h => by simp at h, fun e h => ?_⟩
      simp only [Except.error.injEq] at h
      subst h
      obtain ⟨d, hd⟩ := ih.2 e0 hU
      obtain ⟨d2, hd2⟩ := hfg.grows (Node.obj (ApplyFields f fs (errs, w)).1.1)
        (ApplyFields f fs (errs, w)).2
      refine ⟨d ++ d2, ?_⟩
      split <;> simp only [hd2, hd, List.append_assoc, List.cons_append]
    | ok r =>
      have h1 := ih.1 r hU
      rw [h1]
      simp only []
      have hr := root_tracks hfg (Node.obj r.1.1) r.1.2 errs r.2
      refine ⟨hr.1, fun e h => ⟨[], hr.2 e h⟩⟩
  | .list es, errs, w => by
    have ih := ApplyElems_tracks f g hfg es errs w
    simp only [ApplyUntil, Apply]
    cases hU : ApplyUntilElems g es w with
    | error e0 =>
      refine ⟨fun r h => by simp at h, fun e h => ?_⟩
      simp only [Except.error.injEq] at h
      subst h
      obtain ⟨d, hd⟩ := ih.2 e0 hU
      obtain ⟨d2, hd2⟩ := hfg.grows (Node.list (ApplyElems f es (errs, w)).1.1)
        (ApplyElems f es (errs, w)).2
      refine ⟨d ++ d2, ?_⟩
      split <;> simp only [hd2, hd, List.append_assoc, List.cons_append]
    | ok r =>
      have h1 := ih.1 r hU
      rw [h1]
      simp only []
      have hr := root_tracks hfg (Node.list r.1.1) r.1.2 errs r.2
      refine ⟨hr.1, fun e h => ⟨[], hr.2 e h⟩⟩
  | .nil, errs, w => by
    simp only [ApplyUntil, Apply]
    exact ⟨fun r h => by simp only [Except.ok.injEq] at h; rw [← h],
      fun e h => by simp at h⟩
  | .val v, errs, w => by
    simp only [ApplyUntil, Apply]
    have hr := root_tracks hfg (Node.val v) false errs w
    refine ⟨hr.1, fun e h => ⟨[], hr.2 e h⟩⟩
theorem ApplyFields_tracks {ω : Type} (f : Node → List Err × ω → (Node × Bool) × (List Err × ω))
    (g : Node → ω → Except Err ((Node × Bool) × ω)) (hfg : Tracks f g) :
    ∀ (fs : List (String × Node)) (errs : List Err) (w : ω),
      (∀ r, ApplyUntilFields g fs w = .ok r → ApplyFields f fs (errs, w) = (r.1, (errs, r.2))) ∧
      (∀ e, ApplyUntilFields g fs w = .error e →
        ∃ d, (ApplyFields f fs (errs, w)).2.1 = errs ++ e :: d)
  | [], errs, w => by
    simp only [ApplyUntilFields, ApplyFields]
    exact ⟨fun r h => by simp at h; rw [← h], fun e h => by simp at h⟩
  | (k, v) :: rest, errs, w => by
    have ih1 := Apply_tracks f g hfg v errs w
    simp only [ApplyUntilFields, ApplyFields]
    cases hU : ApplyUntil g v w with
    | error e0 =>
      refine ⟨fun r h => by simp at h, fun e h => ?_⟩
      simp only [Except.error.injEq] at h
      subst h
      obtain ⟨d, hd⟩ := ih1.2 e0 hU
      obtain ⟨d2, hd2⟩ := ApplyFields_grows f (fun n s => hfg.grows n s) rest (Apply f v (errs, w)).2
      exact ⟨d ++ d2, by simp only [hd2, hd, List.append_assoc, List.cons_append]⟩
    | ok r =>
      have h1 := ih1.1 r hU
      have ih2 := ApplyFields_tracks f g hfg rest errs r.2
      rw [h1]
      simp only []
      cases hU2 : ApplyUntilFields g rest r.2 with
      | error e0 =>
        refine ⟨fun r h => by simp at h, fun e h => ?_⟩
        simp only [Except.error.injEq] at h
        subst h
        exact ih2.2 e0 hU2
      | ok rs =>
        refine ⟨fun r' h => ?_, fun e h => by simp at h⟩
        simp only [Except.ok.injEq] at h
        rw [ih2.1 rs hU2, ← h]
theorem ApplyElems_tracks {ω : Type} (f : Node → List Err × ω → (Node × Bool) × (List Err × ω))
    (g : Node → ω → Except Err ((Node × Bool) × ω)) (hfg : Tracks f g) :
    ∀ (es : List Node) (errs : List Err) (w : ω),
      (∀ r, ApplyUntilElems g es w = .ok r → ApplyElems f es (errs, w) = (r.1, (errs, r.2))) ∧
      (∀ e, ApplyUntilElems g es w = .error e →
        ∃ d, (ApplyElems f es (errs, w)).2.1 = errs ++ e :: d)
  | [], errs, w => by
    simp only [ApplyUntilElems, ApplyElems]
    exact ⟨fun r h => by simp at h; rw [← h], fun e h => by simp at h⟩
  | v :: rest, errs, w => by
    have ih1 := Apply_tracks f g hfg v errs w
    simp only [ApplyUntilElems, ApplyElems]
    cases hU : ApplyUntil g v w with
    | error e0 =>
      refine ⟨fun r h => by simp at h, fun e h => ?_⟩
      simp only [Except.error.injEq] at h
      subst h
      obtain ⟨d, hd⟩ := ih1.2 e0 hU
      obtain ⟨d2, hd2⟩ := ApplyElems_grows f (fun n s => hfg.grows n s) rest (Apply f v (errs, w)).2
      exact ⟨d ++ d2, by simp only [hd2, hd, List.append_assoc, List.cons_append]⟩
    | ok r =>
      have h1 := ih1.1 r hU
      have ih2 := ApplyElems_tracks f g hfg rest errs r.2
      rw [h1]
      simp only []
      cases hU2 : ApplyUntilElems g rest r.2 with
      | error e0 =>
        refine ⟨fun r h => by simp at h, fun e h => ?_⟩
        simp only [Except.error.injEq] at h
        subst h
        exact ih2.2 e0 hU2
      | ok rs =>
        refine ⟨fun r' h => ?_, fun e h => by simp at h⟩
        simp only [Except.ok.injEq] at h
        rw [ih2.1 rs hU2, ← h]
end

theorem visit_tracks {ω : Type} (src dst : Op ω) :
    Tracks (applyMap.visit src dst) (visitUntil src dst) := by
  intro n errs w
  unfold applyMap.visit visitUntil
  cases hs : applyMap.skip src n with
  | true =>
    simp only [if_true]
    exact ⟨fun c h => by simp at h; rw [← h], fun e h => by simp at h⟩
  | false =>
    simp only [Bool.false_eq_true, if_false]
    cases hc : (src.Check NewState n w).1.2.2 with
    | some err =>
      simp only []
      exact ⟨fun c h => by simp at h, fun e h => by simp at h; rw [← h]⟩
    | none =>
      simp only []
      cases hok : (src.Check NewState n w).1.2.1 with
      | false =>
        simp only [Bool.not_false, if_true]
        exact ⟨fun c h => by simp at h; rw [← h], fun e h => by simp at h⟩
      | true =>
        simp only [Bool.not_true, Bool.false_eq_true, if_false]
        cases hk : (dst.Construct (src.Check NewState n w).1.1 Node.nil
            (src.Check NewState n w).2).1.2 with
        | some err =>
          simp only []
          exact ⟨fun c h => by simp at h, fun e h => by simp at h; rw [← h]⟩
        | none =>
          simp only []
          exact ⟨fun c h => by simp at h; rw [← h], fun e h => by simp at h⟩

theorem applyMap_err {ω : Type} (src dst : Op ω) (n : Node) (w : ω) :
    (applyMap src dst n w).1.2 = firstError src dst n w := by
  have h := Apply_tracks _ _ (visit_tracks src dst) n [] w
  have herr : (applyMap src dst n w).1.2
      = (Apply (applyMap.visit src dst) n ([], w)).2.1.head? := by
    unfold applyMap
    simp only []
    split <;> rfl
  rw [herr]
  unfold firstError
  cases hU : ApplyUntil (visitUntil src dst) n w with
  | error e =>
    obtain ⟨d, hd⟩ := h.2 e hU
    simp [hd]
  | ok r =>
    rw [h.1 r hU]
    rfl

mutual
theorem ApplyUntil_error {σ : Type} (g : Node → σ → Except Err ((Node × Bool) × σ)) :
    ∀ (n : Node) (s : σ) (e : Err), ApplyUntil g n s = .error e →
      ∃ n' s', g n' s' = .error e
  | .obj fs, s, e, h => by
    simp only [ApplyUntil] at h
    cases hU : ApplyUntilFields g fs s with
    | error e0 =>
      rw [hU] at h
      simp only [Except.error.injEq] at h
      exact ApplyUntilFields_error g fs s e (by rw [hU, h])
    | ok r =>
      rw [hU] at h
      simp only [] at h
      cases hg : g (Node.obj r.1.1) r.2 with
      | error e1 =>
        rw [hg] at h
        simp only [Except.error.injEq] at h
        exact ⟨_, _, by rw [hg, h]⟩
      | ok c =>
        rw [hg] at h
        simp only [] at h
        split at h <;> simp at h
  | .list es, s, e, h => by
    simp only [ApplyUntil] at h
    cases hU : ApplyUntilElems g es s with
    | error e0 =>
      rw [hU] at h
      simp only [Except.error.injEq] at h
      exact ApplyUntilElems_error g es s e (by rw [hU, h])
    | ok r =>
      rw [hU] at h
      simp only [] at h
      cases hg : g (Node.list r.1.1) r.2 with
      | error e1 =>
        rw [hg] at h
        simp only [Except.error.injEq] at h
        exact ⟨_, _, by rw [hg, h]⟩
      | ok c =>
        rw [hg] at h
        simp only [] at h
        split at h <;> simp at h
  | .nil, s, e, h => by
    simp [ApplyUntil] at h
  | .val v, s, e, h => by
    simp only [ApplyUntil] at h
    cases hg : g (Node.val v) s with
    | error e1 =>
      rw [hg] at h
      simp only [Except.error.injEq] at h
      exact ⟨_, _, by rw [hg, h]⟩
    | ok c =>
      rw [hg] at h
      simp only [] at h
      split at h <;> simp at h
theorem ApplyUntilFields_error {σ : Type} (g : Node → σ → Except Err ((Node × Bool) × σ)) :
    ∀ (fs : List (String × Node)) (s : σ) (e : Err), ApplyUntilFields g fs s = .error e →
      ∃ n' s', g n' s' = .error e
  | [], s, e, h => by simp [ApplyUntilFields] at h
  | (k, v) :: rest, s, e, h => by
    simp only [ApplyUntilFields] at h
    cases hU : ApplyUntil g v s with
    | error e0 =>
      rw [hU] at h
      simp only [Except.error.injEq] at h
      exact ApplyUntil_error g v s e (by rw [hU, h])
    | ok r =>
      rw [hU] at h
      simp only [] at h
      cases hU2 : ApplyUntilFields g rest r.2 with
      | error e1 =>
        rw [hU2] at h
        simp only [Except.error.injEq] at h
        exact ApplyUntilFields_error g rest r.2 e (by rw [hU2, h])
      | ok rs =>
        rw [hU2] at h
        simp at h
theorem ApplyUntilElems_error {σ : Type} (g : Node → σ → Except Err ((Node × Bool) × σ)) :
    ∀ (es : List Node) (s : σ) (e : Err), ApplyUntilElems g es s = .error e →
      ∃ n' s', g n' s' = .error e
  | [], s, e, h => by simp [ApplyUntilElems] at h
  | v :: rest, s, e, h => by
    simp only [ApplyUntilElems] at h
    cases hU : ApplyUntil g v s with
    | error e0 =>
      rw [hU] at h
      simp only [Except.error.injEq] at h
      exact ApplyUntil_error g v s e (by rw [hU, h])
    | ok r =>
      rw [hU] at h
      simp only [] at h
      cases hU2 : ApplyUntilElems g rest r.2 with
      | error e1 =>
        rw [hU2] at h
        simp only [Except.error.injEq] at h
        exact ApplyUntilElems_error g rest r.2 e (by rw [hU2, h])
      | ok rs =>
        rw [hU2] at h
        simp at h
end

theorem visitUntil_wrapped {ω : Type} (src dst : Op ω) (n : Node) (w : ω) (e : Err)
    (h : visitUntil src dst n w = .error e) :
    ∃ c, e = Err.errCheck c ∨ e = Err.errConstruct c := by
  unfold visitUntil at h
  split at h
  · simp at h
  · split at h
    · next err _ =>
      simp only [Except.error.injEq] at h
      exact ⟨err, Or.inl h.symm⟩
    · split at h
      · simp at h
      · split at h
        · next err _ =>
          simp only [Except.error.injEq] at h
          exact ⟨err, Or.inr h.symm⟩
        · simp at h

theorem firstError_wrapped {ω : Type} (src dst : Op ω) (n : Node) (w : ω) (e : Err)
    (h : firstError src dst n w = some e) :
    ∃ c, e = Err.errCheck c ∨ e = Err.errConstruct c := by
  unfold firstError at h
  cases hU : ApplyUntil (visitUntil src dst) n w with
  | ok r => rw [hU] at h; simp at h
  | error e0 =>
    rw [hU] at h
    simp only [Option.some.injEq] at h
    obtain ⟨n', w', hg⟩ := ApplyUntil_error _ n w e0 hU
    rw [← h]
    exact visitUntil_wrapped src dst n' w' e0 hg


/-! ## Lemmas on maps, the heap and the state -/

theorem mapGet_mapSet_self {α : Type} (m : List (String × α)) (k : String) (v : α) :
    mapGet (mapSet m k v) k = some v := by
  induction m with
  | nil => simp [mapSet, mapGet]
  | cons kv rest ih =>
    obtain ⟨k', v'⟩ := kv
    by_cases hk : k' = k
    · simp [mapSet, mapGet, hk]
    · simp [mapSet, mapGet, hk, ih]

theorem mapGet_mapSet_ne {α : Type} (m : List (String × α)) (k k' : String) (v : α)
    (hne : k' ≠ k) : mapGet (mapSet m k v) k' = mapGet m k' := by
  induction m with
  | nil =>
    have : ¬ k = k' := fun h => hne h.symm
    simp [mapSet, mapGet, this]
  | cons kv rest ih =>
    obtain ⟨k0, v0⟩ := kv
    by_cases hk : k0 = k
    · have h1 : ¬ k = k' := fun h => hne h.symm
      subst hk
      simp [mapSet, mapGet, h1]
    · by_cases hk2 : k0 = k'
      · subst hk2
        simp [mapSet, mapGet, hk]
      · simp [mapSet, mapGet, hk, hk2, ih]

theorem mapGet_mapSet {α : Type} (m : List (String × α)) (k k' : String) (v : α) :
    mapGet (mapSet m k v) k' = if k' = k then some v else mapGet m k' := by
  by_cases h : k' = k
  · rw [if_pos h, h, mapGet_mapSet_self]
  · rw [if_neg h, mapGet_mapSet_ne _ _ _ _ h]

theorem varsAt_makeVars (h : Heap) (m : Option Addr) :
    (h.makeVars).1.varsAt m = h.varsAt m := by
  cases m with
  | none => rfl
  | some a =>
    simp only [Heap.varsAt, Heap.makeVars, List.getD_eq_getElem?_getD]
    by_cases ha : a < h.vars.length
    · rw [List.getElem?_append_left ha]
    · rw [List.getElem?_eq_none (not_lt.mp ha)]
      by_cases ha2 : a = h.vars.length
      · subst ha2; simp
      · have h1 : h.vars.length + 1 ≤ a :=
          Nat.lt_of_le_of_ne (not_lt.mp ha) (fun h' => ha2 h'.symm)
        rw [List.getElem?_eq_none (by simpa using h1)]

theorem statesAt_makeStates (h : Heap) (m : Option Addr) :
    (h.makeStates).1.statesAt m = h.statesAt m := by
  cases m with
  | none => rfl
  | some a =>
    simp only [Heap.statesAt, Heap.makeStates, List.getD_eq_getElem?_getD]
    by_cases ha : a < h.states.length
    · rw [List.getElem?_append_left ha]
    · rw [List.getElem?_eq_none (not_lt.mp ha)]
      by_cases ha2 : a = h.states.length
      · subst ha2; simp
      · have h1 : h.states.length + 1 ≤ a :=
          Nat.lt_of_le_of_ne (not_lt.mp ha) (fun h' => ha2 h'.symm)
        rw [List.getElem?_eq_none (by simpa using h1)]

theorem varsAt_writeVars_self (h : Heap) (a : Addr) (k : String) (v : Bound)
    (ha : a < h.vars.length) :
    (h.writeVars (some a) k v).varsAt (some a) = mapSet (h.varsAt (some a)) k v := by
  simp [Heap.writeVars, Heap.varsAt, List.getD_eq_getElem?_getD, List.getElem?_set_self ha]

theorem varsAt_writeVars_ne (h : Heap) (a : Addr) (m : Option Addr) (k : String) (v : Bound)
    (hne : m ≠ some a) :
    (h.writeVars (some a) k v).varsAt m = h.varsAt m := by
  cases m with
  | none => rfl
  | some b =>
    have : a ≠ b := fun hab => hne (by rw [hab])
    simp [Heap.writeVars, Heap.varsAt, List.getD_eq_getElem?_getD, List.getElem?_set_ne this]

theorem statesAt_writeStates_self (h : Heap) (a : Addr) (k : String) (v : List Addr)
    (ha : a < h.states.length) :
    (h.writeStates (some a) k v).statesAt (some a) = mapSet (h.statesAt (some a)) k v := by
  simp [Heap.writeStates, Heap.statesAt, List.getD_eq_getElem?_getD, List.getElem?_set_self ha]

theorem statesAt_writeStates_ne (h : Heap) (a : Addr) (m : Option Addr) (k : String)
    (v : List Addr) (hne : m ≠ some a) :
    (h.writeStates (some a) k v).statesAt m = h.statesAt m := by
  cases m with
  | none => rfl
  | some b =>
    have : a ≠ b := fun hab => hne (by rw [hab])
    simp [Heap.writeStates, Heap.statesAt, List.getD_eq_getElem?_getD, List.getElem?_set_ne this]

theorem statesAt_writeVars (h : Heap) (t m : Option Addr) (k : String) (v : Bound) :
    (h.writeVars t k v).statesAt m = h.statesAt m := by
  cases t <;> cases m <;> rfl

theorem varsAt_writeStates (h : Heap) (t m : Option Addr) (k : String) (v : List Addr) :
    (h.writeStates t k v).varsAt m = h.varsAt m := by
  cases t <;> cases m <;> rfl

theorem statesAt_makeVars (h : Heap) (m : Option Addr) :
    (h.makeVars).1.statesAt m = h.statesAt m := by
  cases m <;> rfl

theorem varsAt_makeStates (h : Heap) (m : Option Addr) :
    (h.makeStates).1.varsAt m = h.varsAt m := by
  cases m <;> rfl

theorem vars_length_writeVars (h : Heap) (t : Option Addr) (k : String) (v : Bound) :
    (h.writeVars t k v).vars.length = h.vars.length := by
  cases t <;> simp [Heap.writeVars]

theorem states_length_writeStates (h : Heap) (t : Option Addr) (k : String) (v : List Addr) :
    (h.writeStates t k v).states.length = h.states.length := by
  cases t <;> simp [Heap.writeStates]

theorem states_length_writeVars (h : Heap) (t : Option Addr) (k : String) (v : Bound) :
    (h.writeVars t k v).states.length = h.states.length := by
  cases t <;> rfl

theorem vars_length_writeStates (h : Heap) (t : Option Addr) (k : String) (v : List Addr) :
    (h.writeStates t k v).vars.length = h.vars.length := by
  cases t <;> rfl

theorem mergeVars_spec (a : Addr) (src : List (String × Bound)) :
    ∀ (hh : Heap), a < hh.vars.length →
      (∀ k, mapGet ((src.foldl (fun hh kv =>
            match mapGet (hh.varsAt (some a)) kv.1 with
            | some _ => hh
            | none => hh.writeVars (some a) kv.1 kv.2) hh).varsAt (some a)) k
          = match mapGet (hh.varsAt (some a)) k with
            | some v => some v
            | none => mapGet src k) ∧
      (∀ m, (src.foldl (fun hh kv =>
            match mapGet (hh.varsAt (some a)) kv.1 with
            | some _ => hh
            | none => hh.writeVars (some a) kv.1 kv.2) hh).statesAt m = hh.statesAt m) ∧
      (src.foldl (fun hh kv =>
            match mapGet (hh.varsAt (some a)) kv.1 with
            | some _ => hh
            | none => hh.writeVars (some a) kv.1 kv.2) hh).states.length = hh.states.length := by
  induction src with
  | nil =>
    intro hh _
    refine ⟨fun k => ?_, fun m => rfl, rfl⟩
    simp only [List.foldl_nil, mapGet]
    cases mapGet (hh.varsAt (some a)) k <;> rfl
  | cons kv rest ih =>
    intro hh ha
    obtain ⟨k0, v0⟩ := kv
    simp only [List.foldl_cons]
    cases hk0 : mapGet (hh.varsAt (some a)) k0 with
    | some c =>
      simp only []
      obtain ⟨i1, i2, i3⟩ := ih hh ha
      refine ⟨fun k => ?_, i2, i3⟩
      rw [i1 k]
      cases hk : mapGet (hh.varsAt (some a)) k with
      | some v => rfl
      | none =>
        have hne : ¬ k0 = k := by
          intro h'; rw [h'] at hk0; rw [hk0] at hk; cases hk
        simp [mapGet, hne]
    | none =>
      simp only []
      have ha2 : a < (hh.writeVars (some a) k0 v0).vars.length := by
        rw [vars_length_writeVars]; exact ha
      obtain ⟨i1, i2, i3⟩ := ih (hh.writeVars (some a) k0 v0) ha2
      refine ⟨fun k => ?_, fun m => by rw [i2 m, statesAt_writeVars],
        by rw [i3, states_length_writeVars]⟩
      rw [i1 k, varsAt_writeVars_self _ _ _ _ ha, mapGet_mapSet]
      by_cases hkk : k = k0
      · subst hkk
        simp [mapGet, hk0]
      · have hne : ¬ k0 = k := fun h' => hkk h'.symm
        rw [if_neg hkk]
        simp only [mapGet, if_neg hne]

theorem mergeStates_spec (a : Addr) (src : List (String × List Addr)) :
    ∀ (hh : Heap), a < hh.states.length →
      (∀ k, mapGet ((src.foldl (fun hh kv =>
            match mapGet (hh.statesAt (some a)) kv.1 with
            | some _ => hh
            | none => hh.writeStates (some a) kv.1 kv.2) hh).statesAt (some a)) k
          = match mapGet (hh.statesAt (some a)) k with
            | some v => some v
            | none => mapGet src k) ∧
      (∀ m, (src.foldl (fun hh kv =>
            match mapGet (hh.statesAt (some a)) kv.1 with
            | some _ => hh
            | none => hh.writeStates (some a) kv.1 kv.2) hh).varsAt m = hh.varsAt m) ∧
      (src.foldl (fun hh kv =>
            match mapGet (hh.statesAt (some a)) kv.1 with
            | some _ => hh
            | none => hh.writeStates (some a) kv.1 kv.2) hh).vars.length = hh.vars.length := by
  induction src with
  | nil =>
    intro hh _
    refine ⟨fun k => ?_, fun m => rfl, rfl⟩
    simp only [List.foldl_nil, mapGet]
    cases mapGet (hh.statesAt (some a)) k <;> rfl
  | cons kv rest ih =>
    intro hh ha
    obtain ⟨k0, v0⟩ := kv
    simp only [List.foldl_cons]
    cases hk0 : mapGet (hh.statesAt (some a)) k0 with
    | some c =>
      simp only []
      obtain ⟨i1, i2, i3⟩ := ih hh ha
      refine ⟨fun k => ?_, i2, i3⟩
      rw [i1 k]
      cases hk : mapGet (hh.statesAt (some a)) k with
      | some v => rfl
      | none =>
        have hne : ¬ k0 = k := by
          intro h'; rw [h'] at hk0; rw [hk0] at hk; cases hk
        simp [mapGet, hne]
    | none =>
      simp only []
      have ha2 : a < (hh.writeStates (some a) k0 v0).states.length := by
        rw [states_length_writeStates]; exact ha
      obtain ⟨i1, i2, i3⟩ := ih (hh.writeStates (some a) k0 v0) ha2
      refine ⟨fun k => ?_, fun m => by rw [i2 m, varsAt_writeStates],
        by rw [i3, vars_length_writeStates]⟩
      rw [i1 k, statesAt_writeStates_self _ _ _ _ ha, mapGet_mapSet]
      by_cases hkk : k = k0
      · subst hkk
        simp [mapGet, hk0]
      · have hne : ¬ k0 = k := fun h' => hkk h'.symm
        rw [if_neg hkk]
        simp only [mapGet, if_neg hne]

theorem mergeVars_phase (h0 : Heap) (t : Option Addr) (src : List (String × Bound))
    (hsrc : t = none → src = []) (hval : ∀ a, t = some a → a < h0.vars.length) :
    (∀ k, mapGet ((src.foldl (fun hh kv =>
          match mapGet (hh.varsAt t) kv.1 with
          | some _ => hh
          | none => hh.writeVars t kv.1 kv.2) h0).varsAt t) k
        = match mapGet (h0.varsAt t) k with
          | some v => some v
          | none => mapGet src k) ∧
    (∀ m, (src.foldl (fun hh kv =>
          match mapGet (hh.varsAt t) kv.1 with
          | some _ => hh
          | none => hh.writeVars t kv.1 kv.2) h0).statesAt m = h0.statesAt m) ∧
    (src.foldl (fun hh kv =>
          match mapGet (hh.varsAt t) kv.1 with
          | some _ => hh
          | none => hh.writeVars t kv.1 kv.2) h0).states.length = h0.states.length := by
  cases t with
  | none =>
    rw [hsrc rfl]
    exact ⟨fun k => by simp [Heap.varsAt, mapGet], fun m => rfl, rfl⟩
  | some a => exact mergeVars_spec a src h0 (hval a rfl)

theorem mergeStates_phase (h0 : Heap) (t : Option Addr) (src : List (String × List Addr))
    (hsrc : t = none → src = []) (hval : ∀ a, t = some a → a < h0.states.length) :
    (∀ k, mapGet ((src.foldl (fun hh kv =>
          match mapGet (hh.statesAt t) kv.1 with
          | some _ => hh
          | none => hh.writeStates t kv.1 kv.2) h0).statesAt t) k
        = match mapGet (h0.statesAt t) k with
          | some v => some v
          | none => mapGet src k) ∧
    (∀ m, (src.foldl (fun hh kv =>
          match mapGet (hh.statesAt t) kv.1 with
          | some _ => hh
          | none => hh.writeStates t kv.1 kv.2) h0).varsAt m = h0.varsAt m) ∧
    (src.foldl (fun hh kv =>
          match mapGet (hh.statesAt t) kv.1 with
          | some _ => hh
          | none => hh.writeStates t kv.1 kv.2) h0).vars.length = h0.vars.length := by
  cases t with
  | none =>
    rw [hsrc rfl]
    exact ⟨fun k => by simp [Heap.statesAt, mapGet], fun m => rfl, rfl⟩
  | some a => exact mergeStates_spec a src h0 (hval a rfl)


theorem ApplyFrom_get (h : Heap) (st st2 : State) (hin : st.inHeap h) :
    (∀ k, (st.ApplyFrom h st2).2.GetVar (st.ApplyFrom h st2).1 k
        = match st.GetVar h k with
          | some v => some v
          | none => st2.GetVar h k) ∧
    (∀ k, (st.ApplyFrom h st2).2.GetStateVar (st.ApplyFrom h st2).1 k
        = match st.GetStateVar h k with
          | some v => some v
          | none => st2.GetStateVar h k) := by
  obtain ⟨hv, hs⟩ := hin
  -- the block on `vars`
  have hA : ∃ (a : Heap × State),
      a = (if (h.varsAt st2.vars).length ≠ 0 ∧ st.vars = none then
            ((h.makeVars).1, { st with vars := some (h.makeVars).2 })
          else (h, st)) ∧
      (∀ m, a.1.varsAt m = h.varsAt m) ∧ (∀ m, a.1.statesAt m = h.statesAt m) ∧
      a.1.states.length = h.states.length ∧ a.2.states = st.states ∧ a.2.objs = st.objs ∧
      (a.2.vars = none → h.varsAt st2.vars = []) ∧
      (∀ x, a.2.vars = some x → x < a.1.vars.length) ∧
      (∀ k, mapGet (h.varsAt a.2.vars) k = mapGet (h.varsAt st.vars) k) := by
    refine ⟨_, rfl, ?_⟩
    by_cases hc : (h.varsAt st2.vars).length ≠ 0 ∧ st.vars = none
    · rw [if_pos hc]
      refine ⟨varsAt_makeVars h, statesAt_makeVars h, rfl, rfl, rfl, ?_, ?_, ?_⟩
      · intro h'; cases h'
      · intro x hx
        simp only [Option.some.injEq] at hx
        rw [← hx]
        simp [Heap.makeVars]
      · intro k
        rw [hc.2]
        simp [Heap.varsAt, Heap.makeVars, mapGet]
    · rw [if_neg hc]
      refine ⟨fun _ => rfl, fun _ => rfl, rfl, rfl, rfl, ?_, hv, fun _ => rfl⟩
      intro hn
      by_contra hne
      exact hc ⟨by simpa using hne, hn⟩
  obtain ⟨a, ha, a1, a2, a3, a4, a5, a6, a7, a8⟩ := hA
  have hsrc1 : a.1.varsAt st2.vars = h.varsAt st2.vars := a1 _
  have hP := mergeVars_phase a.1 a.2.vars (a.1.varsAt st2.vars)
    (fun hn => by rw [hsrc1]; exact a6 hn) a7
  generalize hh1 : (a.1.varsAt st2.vars).foldl (fun hh kv =>
      match mapGet (hh.varsAt a.2.vars) kv.1 with
      | some _ => hh
      | none => hh.writeVars a.2.vars kv.1 kv.2) a.1 = h1 at hP
  obtain ⟨p1, p2, p3⟩ := hP
  -- the block on `states`
  have hB : ∃ (b : Heap × State),
      b = (if (h1.statesAt st2.states).length ≠ 0 ∧ a.2.states = none then
            ((h1.makeStates).1, { a.2 with states := some (h1.makeStates).2 })
          else (h1, a.2)) ∧
      (∀ m, b.1.varsAt m = h1.varsAt m) ∧ (∀ m, b.1.statesAt m = h1.statesAt m) ∧
      b.2.vars = a.2.vars ∧
      (b.2.states = none → h1.statesAt st2.states = []) ∧
      (∀ x, b.2.states = some x → x < b.1.states.length) ∧
      (∀ k, mapGet (h1.statesAt b.2.states) k = mapGet (h1.statesAt a.2.states) k) := by
    refine ⟨_, rfl, ?_⟩
    by_cases hc : (h1.statesAt st2.states).length ≠ 0 ∧ a.2.states = none
    · rw [if_pos hc]
      refine ⟨varsAt_makeStates h1, statesAt_makeStates h1, rfl, ?_, ?_, ?_⟩
      · intro h'; cases h'
      · intro x hx
        simp only [Option.some.injEq] at hx
        rw [← hx]
        simp [Heap.makeStates]
      · intro k
        rw [hc.2]
        simp [Heap.statesAt, Heap.makeStates, mapGet]
    · rw [if_neg hc]
      refine ⟨fun _ => rfl, fun _ => rfl, rfl, ?_, ?_, fun _ => rfl⟩
      · intro hn
        by_contra hne
        exact hc ⟨by simpa using hne, hn⟩
      · intro x hx
        rw [p3, a3]
        exact hs x (by rw [← a4]; exact hx)
  obtain ⟨b, hb, b1, b2, b3, b4, b5, b6⟩ := hB
  have hsrc2 : b.1.statesAt st2.states = h1.statesAt st2.states := b2 _
  have hQ := mergeStates_phase b.1 b.2.states (b.1.statesAt st2.states)
    (fun hn => by rw [hsrc2]; exact b4 hn) b5
  generalize hh2 : (b.1.statesAt st2.states).foldl (fun hh kv =>
      match mapGet (hh.statesAt b.2.states) kv.1 with
      | some _ => hh
      | none => hh.writeStates b.2.states kv.1 kv.2) b.1 = h2 at hQ
  obtain ⟨q1, q2, q3⟩ := hQ
  have hres : st.ApplyFrom h st2 =
      (h2, { b.2 with objs :=
        if st2.objs.length > b.2.objs.length then b.2.objs ++ st2.objs.drop b.2.objs.length
        else b.2.objs }) := by
    unfold State.ApplyFrom
    simp only []
    rw [← ha, hh1, ← hb, hh2]
  rw [hres]
  constructor
  · intro k
    show mapGet (h2.varsAt b.2.vars) k = _
    rw [q2, b1, b3, p1 k, a1, a8 k, hsrc1]
    rfl
  · intro k
    show mapGet (h2.statesAt b.2.states) k = _
    rw [q1 k, b2, b6 k, hsrc2, p2, p2, a2, a2, a4]
    rfl

theorem mapGet_none_of_not_mem {α : Type} (m : List (String × α)) (k : String)
    (hk : k ∉ m.map Prod.fst) : mapGet m k = none := by
  induction m with
  | nil => rfl
  | cons kv rest ih =>
    obtain ⟨k0, v0⟩ := kv
    simp only [List.map_cons, List.mem_cons, not_or] at hk
    have hne : ¬ k0 = k := fun h' => hk.1 h'.symm
    simp only [mapGet, if_neg hne]
    exact ih hk.2

theorem copyVars_spec (a : Addr) (src : List (String × Bound)) :
    ∀ (hh : Heap), a < hh.vars.length → (src.map Prod.fst).Nodup →
      (∀ k, mapGet ((src.foldl (fun hh kv => hh.writeVars (some a) kv.1 kv.2) hh).varsAt
            (some a)) k
          = match mapGet src k with
            | some v => some v
            | none => mapGet (hh.varsAt (some a)) k) ∧
      (∀ m, m ≠ some a →
        (src.foldl (fun hh kv => hh.writeVars (some a) kv.1 kv.2) hh).varsAt m = hh.varsAt m) ∧
      (∀ m, (src.foldl (fun hh kv => hh.writeVars (some a) kv.1 kv.2) hh).statesAt m
          = hh.statesAt m) ∧
      (src.foldl (fun hh kv => hh.writeVars (some a) kv.1 kv.2) hh).vars.length
          = hh.vars.length ∧
      (src.foldl (fun hh kv => hh.writeVars (some a) kv.1 kv.2) hh).states.length
          = hh.states.length := by
  induction src with
  | nil =>
    intro hh _ _
    exact ⟨fun k => rfl, fun m _ => rfl, fun m => rfl, rfl, rfl⟩
  | cons kv rest ih =>
    intro hh ha hnd
    obtain ⟨k0, v0⟩ := kv
    simp only [List.map_cons, List.nodup_cons] at hnd
    simp only [List.foldl_cons]
    have ha2 : a < (hh.writeVars (some a) k0 v0).vars.length := by
      rw [vars_length_writeVars]; exact ha
    obtain ⟨i1, i2, i3, i4, i5⟩ := ih (hh.writeVars (some a) k0 v0) ha2 hnd.2
    refine ⟨fun k => ?_, fun m hm => by rw [i2 m hm, varsAt_writeVars_ne _ _ _ _ _ hm],
      fun m => by rw [i3 m, statesAt_writeVars],
      by rw [i4, vars_length_writeVars], by rw [i5, states_length_writeVars]⟩
    rw [i1 k, varsAt_writeVars_self _ _ _ _ ha, mapGet_mapSet]
    by_cases hkk : k = k0
    · subst hkk
      rw [mapGet_none_of_not_mem rest k hnd.1]
      simp [mapGet]
    · have hne : ¬ k0 = k := fun h' => hkk h'.symm
      simp only [mapGet, if_neg hne, if_neg hkk]

theorem copyStates_spec (a : Addr) (src : List (String × List Addr)) :
    ∀ (hh : Heap), a < hh.states.length → (src.map Prod.fst).Nodup →
      (∀ k, mapGet ((src.foldl (fun hh kv => hh.writeStates (some a) kv.1 kv.2) hh).statesAt
            (some a)) k
          = match mapGet src k with
            | some v => some v
            | none => mapGet (hh.statesAt (some a)) k) ∧
      (∀ m, m ≠ some a →
        (src.foldl (fun hh kv => hh.writeStates (some a) kv.1 kv.2) hh).statesAt m = hh.statesAt m) ∧
      (∀ m, (src.foldl (fun hh kv => hh.writeStates (some a) kv.1 kv.2) hh).varsAt m
          = hh.varsAt m) ∧
      (src.foldl (fun hh kv => hh.writeStates (some a) kv.1 kv.2) hh).states.length
          = hh.states.length ∧
      (src.foldl (fun hh kv => hh.writeStates (some a) kv.1 kv.2) hh).vars.length
          = hh.vars.length := by
  induction src with
  | nil =>
    intro hh _ _
    exact ⟨fun k => rfl, fun m _ => rfl, fun m => rfl, rfl, rfl⟩
  | cons kv rest ih =>
    intro hh ha hnd
    obtain ⟨k0, v0⟩ := kv
    simp only [List.map_cons, List.nodup_cons] at hnd
    simp only [List.foldl_cons]
    have ha2 : a < (hh.writeStates (some a) k0 v0).states.length := by
      rw [states_length_writeStates]; exact ha
    obtain ⟨i1, i2, i3, i4, i5⟩ := ih (hh.writeStates (some a) k0 v0) ha2 hnd.2
    refine ⟨fun k => ?_, fun m hm => by rw [i2 m hm, statesAt_writeStates_ne _ _ _ _ _ hm],
      fun m => by rw [i3 m, varsAt_writeStates],
      by rw [i4, states_length_writeStates], by rw [i5, vars_length_writeStates]⟩
    rw [i1 k, statesAt_writeStates_self _ _ _ _ ha, mapGet_mapSet]
    by_cases hkk : k = k0
    · subst hkk
      rw [mapGet_none_of_not_mem rest k hnd.1]
      simp [mapGet]
    · have hne : ¬ k0 = k := fun h' => hkk h'.symm
      simp only [mapGet, if_neg hne, if_neg hkk]

theorem copyVars_phase (h0 : Heap) (t : Option Addr) (src : List (String × Bound))
    (hsrc : t = none → src = []) (hval : ∀ a, t = some a → a < h0.vars.length)
    (hnd : (src.map Prod.fst).Nodup) :
    (∀ k, mapGet ((src.foldl (fun hh kv => hh.writeVars t kv.1 kv.2) h0).varsAt t) k
        = match mapGet src k with
          | some v => some v
          | none => mapGet (h0.varsAt t) k) ∧
    (∀ m, m ≠ t →
      (src.foldl (fun hh kv => hh.writeVars t kv.1 kv.2) h0).varsAt m = h0.varsAt m) ∧
    (∀ m, (src.foldl (fun hh kv => hh.writeVars t kv.1 kv.2) h0).statesAt m = h0.statesAt m) ∧
    (src.foldl (fun hh kv => hh.writeVars t kv.1 kv.2) h0).vars.length = h0.vars.length ∧
    (src.foldl (fun hh kv => hh.writeVars t kv.1 kv.2) h0).states.length
        = h0.states.length := by
  cases t with
  | none =>
    rw [hsrc rfl]
    exact ⟨fun k => rfl, fun m _ => rfl, fun m => rfl, rfl, rfl⟩
  | some a => exact copyVars_spec a src h0 (hval a rfl) hnd

theorem copyStates_phase (h0 : Heap) (t : Option Addr) (src : List (String × List Addr))
    (hsrc : t = none → src = []) (hval : ∀ a, t = some a → a < h0.states.length)
    (hnd : (src.map Prod.fst).Nodup) :
    (∀ k, mapGet ((src.foldl (fun hh kv => hh.writeStates t kv.1 kv.2) h0).statesAt t) k
        = match mapGet src k with
          | some v => some v
          | none => mapGet (h0.statesAt t) k) ∧
    (∀ m, m ≠ t →
      (src.foldl (fun hh kv => hh.writeStates t kv.1 kv.2) h0).statesAt m = h0.statesAt m) ∧
    (∀ m, (src.foldl (fun hh kv => hh.writeStates t kv.1 kv.2) h0).varsAt m = h0.varsAt m) ∧
    (src.foldl (fun hh kv => hh.writeStates t kv.1 kv.2) h0).states.length = h0.states.length ∧
    (src.foldl (fun hh kv => hh.writeStates t kv.1 kv.2) h0).vars.length
        = h0.vars.length := by
  cases t with
  | none =>
    rw [hsrc rfl]
    exact ⟨fun k => rfl, fun m _ => rfl, fun m => rfl, rfl, rfl⟩
  | some a => exact copyStates_spec a src h0 (hval a rfl) hnd


theorem Clone_facts (h : Heap) (st : State) (hin : st.inHeap h) (hkd : st.keysDistinct h) :
    (∀ k, (st.Clone h).2.GetVar (st.Clone h).1 k = st.GetVar h k) ∧
    (∀ k, (st.Clone h).2.GetStateVar (st.Clone h).1 k = st.GetStateVar h k) ∧
    (st.Clone h).2.objs = st.objs ∧
    (st.Clone h).1.varsAt st.vars = h.varsAt st.vars ∧
    (st.Clone h).1.statesAt st.states = h.statesAt st.states ∧
    State.apart (st.Clone h).1 (st.Clone h).2 st := by
  obtain ⟨hv, hs⟩ := hin
  obtain ⟨kv, ks⟩ := hkd
  -- the block on `vars`
  have hA : ∃ (a : Heap × State),
      a = (if (h.varsAt st.vars).length ≠ 0 then
            ((h.makeVars).1, { NewState with vars := some (h.makeVars).2 })
          else (h, NewState)) ∧
      (∀ m, a.1.varsAt m = h.varsAt m) ∧ (∀ m, a.1.statesAt m = h.statesAt m) ∧
      a.1.states.length = h.states.length ∧ h.vars.length ≤ a.1.vars.length ∧
      a.2.states = none ∧ a.2.objs = [] ∧
      (a.2.vars = none → h.varsAt st.vars = []) ∧
      (∀ x, a.2.vars = some x → x < a.1.vars.length ∧ h.vars.length ≤ x) := by
    refine ⟨_, rfl, ?_⟩
    by_cases hc : (h.varsAt st.vars).length ≠ 0
    · rw [if_pos hc]
      refine ⟨varsAt_makeVars h, statesAt_makeVars h, rfl, by simp [Heap.makeVars],
        rfl, rfl, ?_, ?_⟩
      · intro h'; cases h'
      · intro x hx
        simp only [Option.some.injEq] at hx
        rw [← hx]
        simp [Heap.makeVars]
    · rw [if_neg hc]
      refine ⟨fun _ => rfl, fun _ => rfl, rfl, le_refl _, rfl, rfl, ?_, ?_⟩
      · intro _
        by_contra hne
        exact hc (by simpa using hne)
      · intro x hx; cases hx
  obtain ⟨a, ha, a1, a2, a3, a4, a5, a6, a7, a8⟩ := hA
  have hsrc1 : a.1.varsAt st.vars = h.varsAt st.vars := a1 _
  have hfresh : h.varsAt a.2.vars = [] := by
    cases hx : a.2.vars with
    | none => rfl
    | some x =>
      have := (a8 x hx).2
      simp [Heap.varsAt, List.getD_eq_getElem?_getD, List.getElem?_eq_none this]
  have hne1 : st.vars ≠ a.2.vars ∨ a.2.vars = none := by
    cases hx : a.2.vars with
    | none => exact Or.inr rfl
    | some x =>
      left
      intro heq
      have h1 := hv x heq
      have h2 := (a8 x hx).2
      exact absurd h1 (not_lt.mpr h2)
  have hP := copyVars_phase a.1 a.2.vars (a.1.varsAt st.vars)
    (fun hn => by rw [hsrc1]; exact a7 hn) (fun x hx => (a8 x hx).1)
    (by rw [hsrc1]; exact kv)
  generalize hh1 : (a.1.varsAt st.vars).foldl
    (fun hh kv => hh.writeVars a.2.vars kv.1 kv.2) a.1 = h1 at hP
  obtain ⟨p1, p2, p3, p4, p5⟩ := hP
  have hst1 : h1.varsAt st.vars = h.varsAt st.vars := by
    rcases hne1 with hne | hnone
    · rw [p2 _ hne, a1]
    · have : a.1.varsAt st.vars = [] := by rw [hsrc1]; exact a7 hnone
      rw [this] at hh1
      simp only [List.foldl_nil] at hh1
      rw [← hh1, a1]
  -- the block on `states`
  have hB : ∃ (b : Heap × State),
      b = (if (h1.statesAt st.states).length ≠ 0 then
            ((h1.makeStates).1, { a.2 with states := some (h1.makeStates).2 })
          else (h1, a.2)) ∧
      (∀ m, b.1.varsAt m = h1.varsAt m) ∧ (∀ m, b.1.statesAt m = h1.statesAt m) ∧
      b.1.vars.length = h1.vars.length ∧ h1.states.length ≤ b.1.states.length ∧
      b.2.vars = a.2.vars ∧ b.2.objs = a.2.objs ∧
      (b.2.states = none → h1.statesAt st.states = []) ∧
      (∀ x, b.2.states = some x → x < b.1.states.length ∧ h1.states.length ≤ x) := by
    refine ⟨_, rfl, ?_⟩
    by_cases hc : (h1.statesAt st.states).length ≠ 0
    · rw [if_pos hc]
      refine ⟨varsAt_makeStates h1, statesAt_makeStates h1, rfl, by simp [Heap.makeStates],
        rfl, rfl, ?_, ?_⟩
      · intro h'; cases h'
      · intro x hx
        simp only [Option.some.injEq] at hx
        rw [← hx]
        simp [Heap.makeStates]
    · rw [if_neg hc]
      refine ⟨fun _ => rfl, fun _ => rfl, rfl, le_refl _, rfl, rfl, ?_, ?_⟩
      · intro _
        by_contra hne
        exact hc (by simpa using hne)
      · intro x hx; rw [a5] at hx; cases hx
  obtain ⟨b, hb, b1, b2, b3, b4, b5, b6, b7, b8⟩ := hB
  have hsrc2 : b.1.statesAt st.states = h.statesAt st.states := by rw [b2, p3, a2]
  have hfresh2 : h1.statesAt b.2.states = [] := by
    cases hx : b.2.states with
    | none => rfl
    | some x =>
      have := (b8 x hx).2
      simp [Heap.statesAt, List.getD_eq_getElem?_getD, List.getElem?_eq_none this]
  have hne2 : st.states ≠ b.2.states ∨ b.2.states = none := by
    cases hx : b.2.states with
    | none => exact Or.inr rfl
    | some x =>
      left
      intro heq
      have h1' := hs x heq
      have h2 := (b8 x hx).2
      rw [p5, a3] at h2
      exact absurd h1' (not_lt.mpr h2)
  have hQ := copyStates_phase b.1 b.2.states (b.1.statesAt st.states)
    (fun hn => by rw [b2]; exact b7 hn) (fun x hx => (b8 x hx).1)
    (by rw [hsrc2]; exact ks)
  generalize hh2 : (b.1.statesAt st.states).foldl
    (fun hh kv => hh.writeStates b.2.states kv.1 kv.2) b.1 = h2 at hQ
  obtain ⟨q1, q2, q3, q4, q5⟩ := hQ
  have hst2 : h2.statesAt st.states = h.statesAt st.states := by
    rcases hne2 with hne | hnone
    · rw [q2 _ hne, b2, p3, a2]
    · have : b.1.statesAt st.states = [] := by rw [b2]; exact b7 hnone
      rw [this] at hh2
      simp only [List.foldl_nil] at hh2
      rw [← hh2, b2, p3, a2]
  have hres : st.Clone h = (h2, { b.2 with objs := [] ++ st.objs }) := by
    unfold State.Clone
    simp only []
    rw [← ha, hh1, ← hb, hh2]
  rw [hres]
  refine ⟨fun k => ?_, fun k => ?_, by simp, ?_, hst2, ?_⟩
  · show mapGet (h2.varsAt b.2.vars) k = mapGet (h.varsAt st.vars) k
    rw [q3, b1, b5, p1 k, a1 a.2.vars, hfresh, hsrc1]
    simp only [mapGet]
    cases mapGet (h.varsAt st.vars) k <;> rfl
  · show mapGet (h2.statesAt b.2.states) k = mapGet (h.statesAt st.states) k
    rw [q1 k, b2 b.2.states, hfresh2, hsrc2]
    simp only [mapGet]
    cases mapGet (h.statesAt st.states) k <;> rfl
  · rw [q3, b1, hst1]
  · refine ⟨⟨?_, ?_⟩, ⟨?_, ?_⟩, ?_, ?_⟩
    · intro x hx
      have hx' : a.2.vars = some x := by rw [← b5]; exact hx
      rw [q5, b3, p4]
      exact (a8 x hx').1
    · intro x hx
      rw [q4]
      exact (b8 x hx).1
    · intro x hx
      rw [q5, b3, p4]
      exact lt_of_lt_of_le (hv x hx) a4
    · intro x hx
      rw [q4]
      have := hs x hx
      rw [← a3, ← p5] at this
      exact lt_of_lt_of_le this b4
    · intro x hx heq
      have hx' : a.2.vars = some x := by rw [← b5]; exact hx
      exact absurd (hv x heq) (not_lt.mpr (a8 x hx').2)
    · intro x hx heq
      have h2' := (b8 x hx).2
      rw [p5, a3] at h2'
      exact absurd (hs x heq) (not_lt.mpr h2')


theorem SetVar_apart (h : Heap) (x y : State) (name : String) (val : Bound)
    (hap : State.apart h x y) :
    State.apart (x.SetVar h name val).1.1 (x.SetVar h name val).1.2 y ∧
    (x.SetVar h name val).1.1.varsAt y.vars = h.varsAt y.vars ∧
    (x.SetVar h name val).1.1.statesAt y.states = h.statesAt y.states := by
  obtain ⟨⟨xv, xs⟩, ⟨yv, ys⟩, dv, ds⟩ := hap
  unfold State.SetVar
  cases hget : mapGet (h.varsAt x.vars) name with
  | some cur =>
    simp only []
    split
    · split <;> exact ⟨⟨⟨xv, xs⟩, ⟨yv, ys⟩, dv, ds⟩, rfl, rfl⟩
    · exact ⟨⟨⟨xv, xs⟩, ⟨yv, ys⟩, dv, ds⟩, rfl, rfl⟩
  | none =>
    simp only []
    cases hx : x.vars with
    | none =>
      simp only [if_true]
      have hy : y.vars ≠ some h.vars.length := by
        intro heq
        exact absurd (yv _ heq) (lt_irrefl _)
      refine ⟨⟨⟨?_, ?_⟩, ⟨?_, ?_⟩, ?_, ?_⟩, ?_, ?_⟩
      · intro a ha
        simp only [Heap.makeVars, Option.mem_def, Option.some.injEq] at ha
        rw [vars_length_writeVars, ← ha]
        simp [Heap.makeVars]
      · intro a ha
        rw [states_length_writeVars]
        exact xs a ha
      · intro a ha
        rw [vars_length_writeVars]
        have := yv a ha
        simp only [Heap.makeVars, List.length_append, List.length_singleton]
        exact Nat.lt_succ_of_lt this
      · intro a ha
        rw [states_length_writeVars]
        exact ys a ha
      · intro a ha
        simp only [Heap.makeVars, Option.mem_def, Option.some.injEq] at ha
        rw [← ha]
        exact hy
      · exact ds
      · show ((h.makeVars).1.writeVars (some (h.makeVars).2) name val).varsAt y.vars = _
        have hy2 : y.vars ≠ some (h.makeVars).2 := hy
        rw [varsAt_writeVars_ne _ _ _ _ _ hy2, varsAt_makeVars]
      · show ((h.makeVars).1.writeVars (some (h.makeVars).2) name val).statesAt y.states = _
        rw [statesAt_writeVars, statesAt_makeVars]
    | some a =>
      simp only [reduceCtorEq, if_false]
      have hy : y.vars ≠ some a := dv a hx
      refine ⟨⟨⟨?_, ?_⟩, ⟨?_, ?_⟩, dv, ds⟩, ?_, ?_⟩
      · intro a' ha'
        rw [vars_length_writeVars]
        exact xv a' ha'
      · intro a' ha'
        rw [states_length_writeVars]
        exact xs a' ha'
      · intro a' ha'
        rw [vars_length_writeVars]
        exact yv a' ha'
      · intro a' ha'
        rw [states_length_writeVars]
        exact ys a' ha'
      · rw [hx, varsAt_writeVars_ne _ _ _ _ _ hy]
      · rw [statesAt_writeVars]


theorem SetStateVar_apart (h : Heap) (x y : State) (name : String) (sub : List Addr)
    (hap : State.apart h x y) :
    State.apart (x.SetStateVar h name sub).1.1 (x.SetStateVar h name sub).1.2 y ∧
    (x.SetStateVar h name sub).1.1.varsAt y.vars = h.varsAt y.vars ∧
    (x.SetStateVar h name sub).1.1.statesAt y.states = h.statesAt y.states := by
  obtain ⟨⟨xv, xs⟩, ⟨yv, ys⟩, dv, ds⟩ := hap
  unfold State.SetStateVar
  cases hget : mapGet (h.statesAt x.states) name with
  | some cur =>
    exact ⟨⟨⟨xv, xs⟩, ⟨yv, ys⟩, dv, ds⟩, rfl, rfl⟩
  | none =>
    simp only []
    cases hx : x.states with
    | none =>
      simp only [if_true]
      have hy : y.states ≠ some h.states.length := by
        intro heq
        exact absurd (ys _ heq) (lt_irrefl _)
      have hy2 : y.states ≠ some (h.makeStates).2 := hy
      refine ⟨⟨⟨?_, ?_⟩, ⟨?_, ?_⟩, ?_, ?_⟩, ?_, ?_⟩
      · intro a ha
        rw [vars_length_writeStates]
        exact xv a ha
      · intro a ha
        simp only [Heap.makeStates, Option.mem_def, Option.some.injEq] at ha
        rw [states_length_writeStates, ← ha]
        simp [Heap.makeStates]
      · intro a ha
        rw [vars_length_writeStates]
        exact yv a ha
      · intro a ha
        rw [states_length_writeStates]
        have := ys a ha
        simp only [Heap.makeStates, List.length_append, List.length_singleton]
        exact Nat.lt_succ_of_lt this
      · exact dv
      · intro a ha
        simp only [Heap.makeStates, Option.mem_def, Option.some.injEq] at ha
        rw [← ha]
        exact hy
      · show ((h.makeStates).1.writeStates (some (h.makeStates).2) name sub).varsAt y.vars = _
        rw [varsAt_writeStates, varsAt_makeStates]
      · show ((h.makeStates).1.writeStates (some (h.makeStates).2) name sub).statesAt
          y.states = _
        rw [statesAt_writeStates_ne _ _ _ _ _ hy2, statesAt_makeStates]
    | some a =>
      simp only [reduceCtorEq, if_false]
      have hy : y.states ≠ some a := ds a hx
      refine ⟨⟨⟨?_, ?_⟩, ⟨?_, ?_⟩, dv, ds⟩, ?_, ?_⟩
      · intro a' ha'
        rw [vars_length_writeStates]
        exact xv a' ha'
      · intro a' ha'
        rw [states_length_writeStates]
        exact xs a' ha'
      · intro a' ha'
        rw [vars_length_writeStates]
        exact yv a' ha'
      · intro a' ha'
        rw [states_length_writeStates]
        exact ys a' ha'
      · rw [varsAt_writeStates]
      · rw [hx, statesAt_writeStates_ne _ _ _ _ _ hy]

theorem calls_apart (y : State) (cs : List Call) :
    ∀ (h : Heap) (x : State), State.apart h x y →
      (x.calls h cs).1.varsAt y.vars = h.varsAt y.vars ∧
      (x.calls h cs).1.statesAt y.states = h.statesAt y.states := by
  induction cs with
  | nil => intro h x _; exact ⟨rfl, rfl⟩
  | cons c rest ih =>
    intro h x hap
    have hstep : State.apart (x.call h c).1 (x.call h c).2 y ∧
        (x.call h c).1.varsAt y.vars = h.varsAt y.vars ∧
        (x.call h c).1.statesAt y.states = h.statesAt y.states := by
      cases c with
      | SetVar name val => exact SetVar_apart h x y name val hap
      | SetStateVar name sub => exact SetStateVar_apart h x y name sub hap
    obtain ⟨i1, i2⟩ := ih _ _ hstep.1
    simp only [State.calls]
    exact ⟨by rw [i1, hstep.2.1], by rw [i2, hstep.2.2]⟩

theorem apart_symm (h : Heap) (x y : State) (hap : State.apart h x y) :
    State.apart h y x := by
  obtain ⟨hx, hy, dv, ds⟩ := hap
  exact ⟨hy, hx, fun a ha heq => dv a heq ha, fun a ha heq => ds a heq ha⟩


/-! ## Properties -/

/-- C1: a Mapping with 0 or 1 steps fails with `ErrFewSteps` and returns the input
tree itself. The world comes back as it was given, whatever the operations of the
steps would do to it: no `Check` and no `Construct` has run. -/
theorem Do_few_steps {ω : Type} (m : Mapping ω) (n : Node) (w : ω)
    (hlen : m.Steps.length ≤ 1) :
    m.Do n w = ((n, some Err.ErrFewSteps), w) := by
  simp [Mapping.Do, hlen]

/-- C1 at a mapping with one step. -/
theorem Do_few_steps_witness :
    exOneStep.Steps.length ≤ 1 ∧
      exOneStep.Do exTree () = ((exTree, some Err.ErrFewSteps), ()) :=
  ⟨by decide, Do_few_steps exOneStep exTree () (by decide)⟩

/-- C2, as amended: when `name` is already bound to a string, an integer or a
boolean `v`, `SetVar(name, v)` returns no error and leaves the state and every map
of the heap as they were. -/
theorem SetVar_same_value (h : Heap) (st : State) (name : String) (v : Value)
    (hb : st.GetVar h name = some (.node (.val v))) :
    st.SetVar h name (.node (.val v)) = ((h, st), none) := by
  unfold State.GetVar at hb
  simp [State.SetVar, hb, Bound.asValue, Node.asValue]

/-- C2, as amended, at the binding of `y` to the integer 1. -/
theorem SetVar_same_value_witness :
    exState.GetVar exHeap "y" = some (.node (.val (.int 1))) ∧
      exState.SetVar exHeap "y" (.node (.val (.int 1))) = ((exHeap, exState), none) :=
  ⟨rfl, SetVar_same_value exHeap exState "y" (.int 1) rfl⟩

/-- C2 fails on null: with `x` bound to the nil node, binding `x` to the nil node
again is reported as a redeclaration. -/
theorem SetVar_nil_twice :
    exState.GetVar exHeap "x" = some (.node .nil) ∧
      exState.SetVar exHeap "x" (.node .nil)
        = ((exHeap, exState),
            some (.ErrVariableRedeclared "x" (.bound (.node .nil)) (.bound (.node .nil)))) :=
  ⟨rfl, rfl⟩

/-- C3: when `name` is bound to `cur`, `SetVar(name, v)` fails with
`ErrVariableRedeclared` if `cur` and `v` are two different primitive leaves, and
if either of them is an Object or a List (equal or not); the state and every map
of the heap are left as they were. -/
theorem SetVar_conflict (h : Heap) (st : State) (name : String) (cur v : Bound)
    (hb : st.GetVar h name = some cur)
    (hc : (cur.isLeaf = true ∧ v.isLeaf = true ∧ cur ≠ v)
      ∨ cur.isObjectOrList = true ∨ v.isObjectOrList = true) :
    st.SetVar h name v
      = ((h, st), some (.ErrVariableRedeclared name (.bound cur) (.bound v))) := by
  unfold State.GetVar at hb
  unfold State.SetVar
  rw [hb]
  simp only []
  split
  · next v1 v2 h1 h2 =>
    have e1 : cur = .node (.val v1) := by
      cases cur with
      | node n => cases n <;> simp_all [Bound.asValue, Node.asValue]
      | fields p => simp [Bound.asValue] at h1
    have e2 : v = .node (.val v2) := by
      cases v with
      | node n => cases n <;> simp_all [Bound.asValue, Node.asValue]
      | fields p => simp [Bound.asValue] at h2
    subst e1 e2
    have hne : v1 ≠ v2 := by
      rcases hc with ⟨_, _, hne⟩ | hc | hc
      · intro hab; exact hne (by rw [hab])
      · simp [Bound.isObjectOrList] at hc
      · simp [Bound.isObjectOrList] at hc
    simp [hne]
  · rfl

/-- C3 at the binding of `y` to the integer 1, rebound to the empty list. -/
theorem SetVar_conflict_witness :
    exState.GetVar exHeap "y" = some (.node (.val (.int 1))) ∧
      exState.SetVar exHeap "y" (.node (.list []))
        = ((exHeap, exState),
            some (.ErrVariableRedeclared "y" (.bound (.node (.val (.int 1))))
              (.bound (.node (.list []))))) :=
  ⟨rfl, SetVar_conflict exHeap exState "y" _ _ rfl (Or.inr (Or.inr rfl))⟩

/-- C4 fails: on the list `["a", "b"]`, where the matcher matches `"a"` and fails
on `"b"`, the mapping returns an error together with the list `["z", "b"]`, in
which the first element has been rewritten. -/
theorem Do_error_keeps_rewrite :
    (Map "m" exSrc exDst).Do exTree ()
        = ((.list [.val (.str "z"), .val (.str "b")],
            some (.errMapping "m" (.errCheck (.other "boom")))), ()) ∧
      Node.list [.val (.str "z"), .val (.str "b")] ≠ exTree :=
  ⟨rfl, by simp [exTree]⟩

/-- C4, as amended: when a Mapping with at least two steps returns an error, some
pass `(src, dst)` of the chain failed on the tree `ni` that the passes before it
produced without error (`n` itself for the first pass), and the tree returned is
the tree of that pass: `ni` when its traversal changed no node, the tree built by
the traversal otherwise. -/
theorem Do_error_tree {ω : Type} (m : Mapping ω) (n : Node) (w : ω)
    (hlen : 2 ≤ m.Steps.length) (e : Err) (herr : (m.Do n w).1.2 = some e) :
    ∃ (i : Nat) (src dst : Step ω) (ni : Node) (wi : ω),
      m.Steps[i]? = some src ∧ m.Steps[i + 1]? = some dst ∧
      runPasses m.Name (windows (m.Steps.take (i + 1))) n w = ((ni, none), wi) ∧
      (applyMap src.Op dst.Op ni wi).1.2 ≠ none ∧
      (m.Do n w).1.1 =
        (if (Apply (applyMap.visit src.Op dst.Op) ni ([], wi)).1.2
          then (Apply (applyMap.visit src.Op dst.Op) ni ([], wi)).1.1 else ni) := by
  have hdo : m.Do n w = Mapping.Do.loop m.Name m.Steps n none w := by
    unfold Mapping.Do
    rw [if_neg (by omega)]
  rw [hdo] at herr ⊢
  obtain ⟨i, src, dst, ni, wi, e1, h1, h2, h3, h4, _⟩ := loop_error m.Name m.Steps n w e herr
  refine ⟨i, src, dst, ni, wi, h1, h2, ?_, ?_, ?_⟩
  · rw [← loop_eq_runPasses]; exact h3
  · rw [h4]; simp
  · have : (applyMap src.Op dst.Op ni wi).1.1
        = (Mapping.Do.loop m.Name m.Steps n none w).1.1 := by rw [h4]
    rw [← this]
    unfold applyMap
    simp only []
    split <;> rfl

/-- C4, as amended, at the list on which the matcher fails after a rewrite. -/
theorem Do_error_tree_witness :
    2 ≤ (Map "m" exSrc exDst).Steps.length ∧
    ((Map "m" exSrc exDst).Do exTree ()).1.2
      = some (.errMapping "m" (.errCheck (.other "boom"))) ∧
    ∃ (i : Nat) (src dst : Step Unit) (ni : Node) (wi : Unit),
      (Map "m" exSrc exDst).Steps[i]? = some src ∧
      (Map "m" exSrc exDst).Steps[i + 1]? = some dst ∧
      runPasses (Map "m" exSrc exDst).Name
        (windows ((Map "m" exSrc exDst).Steps.take (i + 1))) exTree () = ((ni, none), wi) ∧
      (applyMap src.Op dst.Op ni wi).1.2 ≠ none ∧
      ((Map "m" exSrc exDst).Do exTree ()).1.1 =
        (if (Apply (applyMap.visit src.Op dst.Op) ni ([], wi)).1.2
          then (Apply (applyMap.visit src.Op dst.Op) ni ([], wi)).1.1 else ni) :=
  ⟨by decide, rfl, Do_error_tree (Map "m" exSrc exDst) exTree () (by decide) _ rfl⟩

theorem loop_fail_at {ω : Type} (name : String) :
    ∀ (steps : List (Step ω)) (n : Node) (w : ω) (i : Nat) (src dst : Step ω)
      (ni : Node) (wi : ω) (e1 : Err),
      steps[i]? = some src → steps[i + 1]? = some dst →
      Mapping.Do.loop name (steps.take (i + 1)) n none w = ((ni, none), wi) →
      (applyMap src.Op dst.Op ni wi).1.2 = some e1 →
      Mapping.Do.loop name steps n none w
        = (((applyMap src.Op dst.Op ni wi).1.1, some (Err.errMapping name e1)),
            (applyMap src.Op dst.Op ni wi).2)
  | [], n, w, i, src, dst, ni, wi, e1, h1, _, _, _ => by simp at h1
  | [s], n, w, i, src, dst, ni, wi, e1, _, h2, _, _ => by simp at h2
  | s0 :: s1 :: rest, n, w, 0, src, dst, ni, wi, e1, h1, h2, h3, h4 => by
    simp only [List.getElem?_cons_zero, Option.some.injEq] at h1
    simp only [Nat.zero_add, List.getElem?_cons_succ, List.getElem?_cons_zero,
      Option.some.injEq] at h2
    subst h1 h2
    simp only [Nat.zero_add, List.take, Mapping.Do.loop, Prod.mk.injEq] at h3
    obtain ⟨⟨hn, _⟩, hw⟩ := h3
    subst hn hw
    simp only [Mapping.Do.loop, h4]
  | s0 :: s1 :: rest, n, w, j + 1, src, dst, ni, wi, e1, h1, h2, h3, h4 => by
    have ih := loop_fail_at name (s1 :: rest) (applyMap s0.Op s1.Op n w).1.1
      (applyMap s0.Op s1.Op n w).2 j src dst ni wi e1
    rw [List.getElem?_cons_succ] at h1 h2
    cases hr : (applyMap s0.Op s1.Op n w).1.2 with
    | some e0 =>
      simp only [List.take, Mapping.Do.loop, hr, Prod.mk.injEq] at h3
      exact absurd h3.1.2 (by simp)
    | none =>
      have h3' : Mapping.Do.loop name ((s1 :: rest).take (j + 1))
          (applyMap s0.Op s1.Op n w).1.1 none (applyMap s0.Op s1.Op n w).2
          = ((ni, none), wi) := by
        simpa [List.take, Mapping.Do.loop, hr] using h3
      simp only [Mapping.Do.loop, hr]
      exact ih h1 h2 h3' h4

/-- C6: on a Mapping with at least two steps, every pass returns exactly the first
error that it meets in traversal order (and none when it meets none); when the
passes before pass `(src, dst)` ran without error and that pass meets an error,
`Do` returns `errMapping` with the name of the mapping around the first error that
the pass met, which is `errCheck` or `errConstruct` around the error that the
operation returned; and an error that `Do` returns is always of that form, for
the pass that failed. -/
theorem Do_first_error {ω : Type} (m : Mapping ω) (n : Node) (w : ω)
    (hlen : 2 ≤ m.Steps.length) :
    (∀ (src dst : Op ω) (n' : Node) (w' : ω),
      (applyMap src dst n' w').1.2 = firstError src dst n' w') ∧
    (∀ (i : Nat) (src dst : Step ω) (ni : Node) (wi : ω) (e1 : Err),
      m.Steps[i]? = some src → m.Steps[i + 1]? = some dst →
      runPasses m.Name (windows (m.Steps.take (i + 1))) n w = ((ni, none), wi) →
      firstError src.Op dst.Op ni wi = some e1 →
      (m.Do n w).1.2 = some (Err.errMapping m.Name e1) ∧
      (∃ c, e1 = Err.errCheck c ∨ e1 = Err.errConstruct c)) ∧
    (∀ e, (m.Do n w).1.2 = some e →
      ∃ (i : Nat) (src dst : Step ω) (ni : Node) (wi : ω) (e1 : Err),
        m.Steps[i]? = some src ∧ m.Steps[i + 1]? = some dst ∧
        runPasses m.Name (windows (m.Steps.take (i + 1))) n w = ((ni, none), wi) ∧
        firstError src.Op dst.Op ni wi = some e1 ∧
        (∃ c, e1 = Err.errCheck c ∨ e1 = Err.errConstruct c) ∧
        e = Err.errMapping m.Name e1) := by
  have hdo : m.Do n w = Mapping.Do.loop m.Name m.Steps n none w := by
    unfold Mapping.Do
    rw [if_neg (by omega)]
  refine ⟨fun src dst n' w' => applyMap_err src dst n' w', ?_, ?_⟩
  · intro i src dst ni wi e1 h1 h2 h3 hf
    rw [← loop_eq_runPasses] at h3
    have h4 : (applyMap src.Op dst.Op ni wi).1.2 = some e1 := by
      rw [applyMap_err]; exact hf
    refine ⟨?_, firstError_wrapped _ _ _ _ _ hf⟩
    rw [hdo, loop_fail_at m.Name m.Steps n w i src dst ni wi e1 h1 h2 h3 h4]
  · intro e herr
    rw [hdo] at herr
    obtain ⟨i, src, dst, ni, wi, e1, h1, h2, h3, h4, h5⟩ :=
      loop_error m.Name m.Steps n w e herr
    have hf : firstError src.Op dst.Op ni wi = some e1 := by
      rw [← applyMap_err, h4]
    refine ⟨i, src, dst, ni, wi, e1, h1, h2, ?_, hf, firstError_wrapped _ _ _ _ _ hf, h5⟩
    rw [← loop_eq_runPasses]; exact h3

/-- C6 at a matcher that fails at both elements of a list: the first error that
the pass meets is the one of the first element, and it is the one returned. -/
theorem Do_first_error_witness :
    2 ≤ (Map "m" exFailTwice exDst).Steps.length ∧
    firstError exFailTwice exDst exTree () = some (.errCheck (.other "first")) ∧
    ((Map "m" exFailTwice exDst).Do exTree ()).1.2
      = some (.errMapping "m" (.errCheck (.other "first"))) :=
  ⟨by decide, rfl,
    ((Do_first_error (Map "m" exFailTwice exDst) exTree () (by decide)).2.1 0
      { Name := "src", Op := exFailTwice } { Name := "dst", Op := exDst } exTree ()
      (.errCheck (.other "first")) rfl rfl rfl rfl).1⟩

/-- C7: `Reverse` keeps the name, returns the steps in reversed order (step `i` of
the result is step `len-1-i` of `m`), and reversing twice gives back the name and
the steps of `m`. The result is built in a fresh slice: `m` is only read. -/
theorem Reverse_spec {ω : Type} (m : Mapping ω) :
    m.Reverse.Name = m.Name ∧
    m.Reverse.Steps = m.Steps.reverse ∧
    m.Reverse.Steps.length = m.Steps.length ∧
    (∀ i : Fin m.Steps.length,
      m.Reverse.Steps[i.val]? = m.Steps[m.Steps.length - 1 - i.val]?) ∧
    m.Reverse.Reverse.Name = m.Name ∧
    m.Reverse.Reverse.Steps = m.Steps := by
  have hs := Reverse_Steps m
  refine ⟨rfl, hs, by rw [hs, List.length_reverse], ?_, rfl, ?_⟩
  · intro i
    rw [hs, List.getElem?_reverse i.isLt]
  · rw [Reverse_Steps, hs, List.reverse_reverse]

/-- C8: on a Mapping with at least two steps, `Do` runs the passes of the windows
`(s0,s1), (s1,s2), ...` of its step list, in that order, each on the tree and the
world that the previous pass left, and stops at the first pass that returns an
error; window `i` is made of steps `i` and `i+1`. -/
theorem Do_runs_passes {ω : Type} (m : Mapping ω) (n : Node) (w : ω)
    (hlen : 2 ≤ m.Steps.length) :
    m.Do n w = runPasses m.Name (windows m.Steps) n w ∧
    (windows m.Steps).length = m.Steps.length - 1 ∧
    ∀ (i : Nat) (sd : Step ω × Step ω), (windows m.Steps)[i]? = some sd →
      m.Steps[i]? = some sd.1 ∧ m.Steps[i + 1]? = some sd.2 := by
  refine ⟨?_, ?_, ?_⟩
  · unfold Mapping.Do
    rw [if_neg (by omega)]
    exact loop_eq_runPasses _ _ _ _
  · simp [windows]
  · intro i sd h
    unfold windows at h
    rw [List.getElem?_zip_eq_some] at h
    refine ⟨h.1, ?_⟩
    have := h.2
    rw [List.getElem?_tail] at this
    exact this

/-- C8 at a mapping with three steps, on a tree where no pass fails. -/
theorem Do_runs_passes_witness :
    2 ≤ exThree.Steps.length ∧
    (exThree.Do exTreeOk () = runPasses exThree.Name (windows exThree.Steps) exTreeOk () ∧
    (windows exThree.Steps).length = exThree.Steps.length - 1 ∧
    ∀ (i : Nat) (sd : Step Unit × Step Unit), (windows exThree.Steps)[i]? = some sd →
      exThree.Steps[i]? = some sd.1 ∧ exThree.Steps[i + 1]? = some sd.2) :=
  ⟨by decide, Do_runs_passes exThree exTreeOk () (by decide)⟩

/-- C9: after `st.ApplyFrom(st2)`, a name bound in `st` keeps its value, a name
bound only in `st2` has the value of `st2`, and a name bound in neither stays
unbound; the same holds of the state variables. -/
theorem ApplyFrom_first_writer_wins (h : Heap) (st st2 : State) (hin : st.inHeap h) :
    (∀ k, (st.ApplyFrom h st2).2.GetVar (st.ApplyFrom h st2).1 k
        = match st.GetVar h k with
          | some v => some v
          | none => st2.GetVar h k) ∧
    (∀ k, (st.ApplyFrom h st2).2.GetStateVar (st.ApplyFrom h st2).1 k
        = match st.GetStateVar h k with
          | some v => some v
          | none => st2.GetStateVar h k) :=
  ApplyFrom_get h st st2 hin

/-- C9 at the two states of `exHeap2`. -/
theorem ApplyFrom_first_writer_wins_witness :
    exParent.inHeap exHeap2 ∧
    ((∀ k, (exParent.ApplyFrom exHeap2 exChild).2.GetVar (exParent.ApplyFrom exHeap2 exChild).1 k
        = match exParent.GetVar exHeap2 k with
          | some v => some v
          | none => exChild.GetVar exHeap2 k) ∧
    (∀ k, (exParent.ApplyFrom exHeap2 exChild).2.GetStateVar
          (exParent.ApplyFrom exHeap2 exChild).1 k
        = match exParent.GetStateVar exHeap2 k with
          | some v => some v
          | none => exChild.GetStateVar exHeap2 k)) :=
  ⟨by simp [State.inHeap, exParent, exHeap2],
    ApplyFrom_first_writer_wins exHeap2 exParent exChild
      (by simp [State.inHeap, exParent, exHeap2])⟩

/-- C10: a clone has the variable bindings, the state-variable bindings and the
stack depth of the state it was taken from; whatever sequence of `SetVar` and
`SetStateVar` calls runs on the clone, `GetVar` and `GetStateVar` of the original
answer as before for every name, and calls on the original leave the answers of
the clone as they were. -/
theorem Clone_isolated (h : Heap) (st : State)
    (hin : st.inHeap h) (hkd : st.keysDistinct h) :
    (∀ k, (st.Clone h).2.GetVar (st.Clone h).1 k = st.GetVar h k) ∧
    (∀ k, (st.Clone h).2.GetStateVar (st.Clone h).1 k = st.GetStateVar h k) ∧
    (st.Clone h).2.objs.length = st.objs.length ∧
    (∀ (cs : List Call) (k : String),
      st.GetVar ((st.Clone h).2.calls (st.Clone h).1 cs).1 k = st.GetVar h k ∧
      st.GetStateVar ((st.Clone h).2.calls (st.Clone h).1 cs).1 k = st.GetStateVar h k) ∧
    (∀ (cs : List Call) (k : String),
      (st.Clone h).2.GetVar (st.calls (st.Clone h).1 cs).1 k = st.GetVar h k ∧
      (st.Clone h).2.GetStateVar (st.calls (st.Clone h).1 cs).1 k = st.GetStateVar h k) := by
  obtain ⟨c1, c2, c3, c4, c5, c6⟩ := Clone_facts h st hin hkd
  refine ⟨c1, c2, by rw [c3], ?_, ?_⟩
  · intro cs k
    obtain ⟨i1, i2⟩ := calls_apart st cs _ _ c6
    unfold State.GetVar State.GetStateVar
    rw [i1, i2, c4, c5]
    exact ⟨rfl, rfl⟩
  · intro cs k
    obtain ⟨i1, i2⟩ := calls_apart (st.Clone h).2 cs _ _ (apart_symm _ _ _ c6)
    have e1 := c1 k
    have e2 := c2 k
    unfold State.GetVar at e1
    unfold State.GetStateVar at e2
    unfold State.GetVar State.GetStateVar
    rw [i1, i2]
    exact ⟨e1, e2⟩

/-- C10 at the state of `exHeap`. -/
theorem Clone_isolated_witness :
    exState.inHeap exHeap ∧ exState.keysDistinct exHeap ∧
    (exState.Clone exHeap).2.objs.length = exState.objs.length ∧
    (∀ (cs : List Call) (k : String),
      exState.GetVar ((exState.Clone exHeap).2.calls (exState.Clone exHeap).1 cs).1 k
        = exState.GetVar exHeap k) :=
  ⟨by simp [State.inHeap, exState, exHeap],
    by simp [State.keysDistinct, exState, exHeap, Heap.varsAt, Heap.statesAt],
    (Clone_isolated exHeap exState (by simp [State.inHeap, exState, exHeap])
      (by simp [State.keysDistinct, exState, exHeap, Heap.varsAt, Heap.statesAt])).2.2.1,
    fun cs k => ((Clone_isolated exHeap exState (by simp [State.inHeap, exState, exHeap])
      (by simp [State.keysDistinct, exState, exHeap, Heap.varsAt, Heap.statesAt])).2.2.2.1
        cs k).1⟩

/-! ## Lemmas on the later methods -/

theorem foldl_append_flatten {τ : Type} (arr : List (List τ)) :
    ∀ (out : List τ), arr.foldl (fun out a => out ++ a) out = out ++ arr.flatten := by
  induction arr with
  | nil => intro out; simp
  | cons a rest ih => intro out; simp [ih, List.append_assoc]

theorem Transformers_eq {τ : Type} (arr : List (List τ)) : Transformers arr = arr.flatten := by
  unfold Transformers
  rw [foldl_append_flatten]
  rfl

theorem SetVar_facts (h : Heap) (st : State) (name : String) (val : Bound)
    (hin : st.inHeap h) :
    (st.SetVar h name val).1.2.inHeap (st.SetVar h name val).1.1 ∧
    (st.SetVar h name val).1.2.states = st.states ∧
    (st.SetVar h name val).1.2.objs = st.objs ∧
    (∀ m, (st.SetVar h name val).1.1.statesAt m = h.statesAt m) ∧
    (st.SetVar h name val).1.1.objs = h.objs ∧
    (st.GetVar h name = none → (st.SetVar h name val).2 = none) ∧
    (∀ k, (st.SetVar h name val).1.2.GetVar (st.SetVar h name val).1.1 k
        = match st.GetVar h k with
          | some v => some v
          | none => if k = name then some val else none) := by
  obtain ⟨hv, hs⟩ := hin
  unfold State.SetVar State.GetVar
  cases hget : mapGet (h.varsAt st.vars) name with
  | some cur =>
    have hsame : ∀ k, mapGet (h.varsAt st.vars) k
        = match mapGet (h.varsAt st.vars) k with
          | some v => some v
          | none => if k = name then some val else none := by
      intro k
      cases hk : mapGet (h.varsAt st.vars) k with
      | some v => rfl
      | none =>
        have : ¬ k = name := by intro e; rw [e] at hk; rw [hk] at hget; cases hget
        simp [this]
    simp only []
    split
    · split
      · exact ⟨⟨hv, hs⟩, rfl, rfl, fun _ => rfl, rfl, (fun hn => by cases hn), hsame⟩
      · exact ⟨⟨hv, hs⟩, rfl, rfl, fun _ => rfl, rfl, (fun hn => by cases hn), hsame⟩
    · exact ⟨⟨hv, hs⟩, rfl, rfl, fun _ => rfl, rfl, (fun hn => by cases hn), hsame⟩
  | none =>
    simp only []
    cases hx : st.vars with
    | none =>
      simp only [if_true]
      refine ⟨⟨?_, ?_⟩, ?_, ?_, ?_, ?_, ?_, ?_⟩
      · intro a ha
        simp only [Heap.makeVars, Option.mem_def, Option.some.injEq] at ha
        rw [vars_length_writeVars, ← ha]
        simp [Heap.makeVars]
      · intro a ha
        rw [states_length_writeVars]
        exact hs a ha
      · trivial
      · trivial
      · intro m
        rw [statesAt_writeVars, statesAt_makeVars]
      · rfl
      · intro _; trivial
      · intro k
        show mapGet (((h.makeVars).1.writeVars (some (h.makeVars).2) name val).varsAt
          (some (h.makeVars).2)) k = _
        rw [varsAt_writeVars_self _ _ _ _ (by simp [Heap.makeVars]), varsAt_makeVars,
          mapGet_mapSet]
        have : h.varsAt (some (h.makeVars).2) = [] := by
          simp [Heap.varsAt, Heap.makeVars, List.getD_eq_getElem?_getD]
        rw [this]
        simp only [Heap.varsAt, mapGet]
    | some a =>
      have ha : a < h.vars.length := hv a hx
      simp only [reduceCtorEq, if_false]
      refine ⟨⟨?_, ?_⟩, ?_, ?_, ?_, ?_, ?_, ?_⟩
      · intro a' ha'
        rw [vars_length_writeVars]
        exact hv a' ha'
      · intro a' ha'
        rw [states_length_writeVars]
        exact hs a' ha'
      · trivial
      · trivial
      · intro m
        rw [statesAt_writeVars]
      · rw [hx]; rfl
      · intro _; trivial
      · intro k
        rw [hx, varsAt_writeVars_self _ _ _ _ ha, mapGet_mapSet]
        rw [hx] at hget
        by_cases hk : k = name
        · subst hk
          simp [hget]
        · simp only [if_neg hk]
          cases mapGet (h.varsAt (some a)) k <;> rfl

/-- C13: `Transformers` returns the concatenation of its arguments: its length is
the sum of their lengths, each argument appears whole where it stands between the
concatenation of those before it and of those after it, and `Native` is the
`ObjectToNode` stage, then the annotations in their order, then `RolesDedup`. -/
theorem Transformers_concat {τ : Type} (arr : List (List τ)) :
    Transformers arr = arr.flatten ∧
    (Transformers arr).length = (arr.map List.length).sum ∧
    (∀ (pre : List (List τ)) (a : List τ) (post : List (List τ)),
      Transformers (pre ++ a :: post) = Transformers pre ++ a ++ Transformers post) ∧
    (∀ (ObjectToNode RolesDedup : τ) (Annotations : List τ),
      Native ObjectToNode Annotations RolesDedup
        = ObjectToNode :: Annotations ++ [RolesDedup]) := by
  refine ⟨Transformers_eq arr, ?_, ?_, ?_⟩
  · rw [Transformers_eq, List.length_flatten]
  · intro pre a post
    simp [Transformers_eq, List.append_assoc]
  · intro o d ann
    simp [Native, Transformers_eq]

/-- C14: `MustGetVar(name)` fails with `ErrVariableNotDefined` exactly when `name`
is not bound, returns the bound node with no error when it is, and returns `v`
after a `SetVar(name, v)` on a state in which `name` was not bound, which
succeeds. -/
theorem MustGetVar_spec (h : Heap) (st : State) (name : String) (hin : st.inHeap h) :
    ((st.MustGetVar h name).2 = some (Err.ErrVariableNotDefined name)
      ↔ st.GetVar h name = none) ∧
    ((st.MustGetVar h name).2 ≠ none ↔ st.GetVar h name = none) ∧
    (∀ b, st.GetVar h name = some b → st.MustGetVar h name = (b, none)) ∧
    (∀ v, st.GetVar h name = none →
      (st.SetVar h name v).2 = none ∧
      (st.SetVar h name v).1.2.MustGetVar (st.SetVar h name v).1.1 name = (v, none)) := by
  refine ⟨?_, ?_, ?_, ?_⟩
  · unfold State.MustGetVar
    cases st.GetVar h name <;> simp
  · unfold State.MustGetVar
    cases st.GetVar h name <;> simp
  · intro b hb
    unfold State.MustGetVar
    rw [hb]
  · intro v hn
    obtain ⟨_, _, _, _, _, f6, f7⟩ := SetVar_facts h st name v hin
    refine ⟨f6 hn, ?_⟩
    unfold State.MustGetVar
    rw [f7 name, hn]
    simp

/-- C14 at the state of `exHeap`, for the unbound name `z`. -/
theorem MustGetVar_spec_witness :
    exState.inHeap exHeap ∧
    exState.MustGetVar exHeap "z" = (.node .nil, some (Err.ErrVariableNotDefined "z")) ∧
    (exState.SetVar exHeap "z" (.node (.val (.bool true)))).1.2.MustGetVar
        (exState.SetVar exHeap "z" (.node (.val (.bool true)))).1.1 "z"
      = (.node (.val (.bool true)), none) :=
  ⟨by decide, rfl,
    ((MustGetVar_spec exHeap exState "z" (by decide)).2.2.2 _ rfl).2⟩


mutual
theorem Apply_sim {σ₁ σ₂ : Type} (R : σ₁ → σ₂ → Prop)
    (f₁ : Node → σ₁ → (Node × Bool) × σ₁) (f₂ : Node → σ₂ → (Node × Bool) × σ₂)
    (hf : ∀ n s₁ s₂, R s₁ s₂ → (f₁ n s₁).1 = (f₂ n s₂).1 ∧ R (f₁ n s₁).2 (f₂ n s₂).2) :
    ∀ (n : Node) (s₁ : σ₁) (s₂ : σ₂), R s₁ s₂ →
      (Apply f₁ n s₁).1 = (Apply f₂ n s₂).1 ∧ R (Apply f₁ n s₁).2 (Apply f₂ n s₂).2
  | .obj fs, s₁, s₂, hr => by
    have hfs := ApplyFields_sim R f₁ f₂ hf fs s₁ s₂ hr
    simp only [Apply]
    rw [hfs.1]
    have hroot := hf (Node.obj (ApplyFields f₂ fs s₂).1.1) _ _ hfs.2
    rw [hroot.1]
    split <;> exact ⟨rfl, hroot.2⟩
  | .list es, s₁, s₂, hr => by
    have hes := ApplyElems_sim R f₁ f₂ hf es s₁ s₂ hr
    simp only [Apply]
    rw [hes.1]
    have hroot := hf (Node.list (ApplyElems f₂ es s₂).1.1) _ _ hes.2
    rw [hroot.1]
    split <;> exact ⟨rfl, hroot.2⟩
  | .nil, s₁, s₂, hr => by
    simp only [Apply]
    exact ⟨trivial, hr⟩
  | .val v, s₁, s₂, hr => by
    simp only [Apply]
    have hroot := hf (Node.val v) _ _ hr
    rw [hroot.1]
    split <;> exact ⟨rfl, hroot.2⟩
theorem ApplyFields_sim {σ₁ σ₂ : Type} (R : σ₁ → σ₂ → Prop)
    (f₁ : Node → σ₁ → (Node × Bool) × σ₁) (f₂ : Node → σ₂ → (Node × Bool) × σ₂)
    (hf : ∀ n s₁ s₂, R s₁ s₂ → (f₁ n s₁).1 = (f₂ n s₂).1 ∧ R (f₁ n s₁).2 (f₂ n s₂).2) :
    ∀ (fs : List (String × Node)) (s₁ : σ₁) (s₂ : σ₂), R s₁ s₂ →
      (ApplyFields f₁ fs s₁).1 = (ApplyFields f₂ fs s₂).1 ∧
      R (ApplyFields f₁ fs s₁).2 (ApplyFields f₂ fs s₂).2
  | [], s₁, s₂, hr => ⟨rfl, hr⟩
  | (k, v) :: rest, s₁, s₂, hr => by
    have h1 := Apply_sim R f₁ f₂ hf v s₁ s₂ hr
    have h2 := ApplyFields_sim R f₁ f₂ hf rest _ _ h1.2
    simp only [ApplyFields]
    rw [h1.1, h2.1]
    exact ⟨rfl, h2.2⟩
theorem ApplyElems_sim {σ₁ σ₂ : Type} (R : σ₁ → σ₂ → Prop)
    (f₁ : Node → σ₁ → (Node × Bool) × σ₁) (f₂ : Node → σ₂ → (Node × Bool) × σ₂)
    (hf : ∀ n s₁ s₂, R s₁ s₂ → (f₁ n s₁).1 = (f₂ n s₂).1 ∧ R (f₁ n s₁).2 (f₂ n s₂).2) :
    ∀ (es : List Node) (s₁ : σ₁) (s₂ : σ₂), R s₁ s₂ →
      (ApplyElems f₁ es s₁).1 = (ApplyElems f₂ es s₂).1 ∧
      R (ApplyElems f₁ es s₁).2 (ApplyElems f₂ es s₂).2
  | [], s₁, s₂, hr => ⟨rfl, hr⟩
  | v :: rest, s₁, s₂, hr => by
    have h1 := Apply_sim R f₁ f₂ hf v s₁ s₂ hr
    have h2 := ApplyElems_sim R f₁ f₂ hf rest _ _ h1.2
    simp only [ApplyElems]
    rw [h1.1, h2.1]
    exact ⟨rfl, h2.2⟩
end

/-- C17 fails: on the list `["a", "b"]`, where the function fails at `"a"` and
then at `"b"`, the error returned is the one of `"b"`. -/
theorem TransformFunc_Do_second_error :
    TransformFunc.errors exFunc exTree () = [.other "first", .other "second"] ∧
    (TransformFunc.Do exFunc exTree ()).1.2 = some (.other "second") :=
  ⟨rfl, rfl⟩

/-- C17, as amended: the error that `f.Do(n)` returns is the last of the errors
that `f` returns during the traversal, in traversal order (none when `f` returns
no error). -/
theorem TransformFunc_Do_last_error {ω : Type} (f : TransformFunc ω) (n : Node) (w : ω) :
    (TransformFunc.Do f n w).1.2 = (TransformFunc.errors f n w).getLast? := by
  have hsim := Apply_sim
    (fun (s₁ : Option Err × ω) (s₂ : List Err × ω) => s₁.1 = s₂.1.getLast? ∧ s₁.2 = s₂.2)
    (TransformFunc.Do.visit f) (TransformFunc.errors.visit f)
    (by
      intro n' s₁ s₂ hr
      obtain ⟨l₁, w₁⟩ := s₁
      obtain ⟨l₂, w₂⟩ := s₂
      obtain ⟨h1, h2⟩ := hr
      simp only at h1 h2
      subst h2
      unfold TransformFunc.Do.visit TransformFunc.errors.visit
      simp only []
      cases he : (f n' w₁).1.2.2 with
      | some err => simp
      | none =>
        simp only []
        split <;> exact ⟨rfl, h1, rfl⟩)
    n (none, w) ([], w) ⟨rfl, rfl⟩
  have hd : (TransformFunc.Do f n w).1.2
      = (Apply (TransformFunc.Do.visit f) n (none, w)).2.1 := by
    unfold TransformFunc.Do
    simp only []
    split <;> rfl
  rw [hd, hsim.2.1]
  rfl


mutual
theorem Apply_keeps {σ : Type} (f : Node → σ → (Node × Bool) × σ) (J : σ → Prop)
    (hf : ∀ n s, n ≠ .nil → J s → J (f n s).2) :
    ∀ (n : Node) (s : σ), J s → J (Apply f n s).2
  | .obj fs, s, hs => by
    have h1 := ApplyFields_keeps f J hf fs s hs
    have h2 := hf (Node.obj (ApplyFields f fs s).1.1) _ (by simp) h1
    simp only [Apply]
    split <;> exact h2
  | .list es, s, hs => by
    have h1 := ApplyElems_keeps f J hf es s hs
    have h2 := hf (Node.list (ApplyElems f es s).1.1) _ (by simp) h1
    simp only [Apply]
    split <;> exact h2
  | .nil, s, hs => by
    simp only [Apply]
    exact hs
  | .val v, s, hs => by
    have h2 := hf (Node.val v) s (by simp) hs
    simp only [Apply]
    split <;> exact h2
theorem ApplyFields_keeps {σ : Type} (f : Node → σ → (Node × Bool) × σ) (J : σ → Prop)
    (hf : ∀ n s, n ≠ .nil → J s → J (f n s).2) :
    ∀ (fs : List (String × Node)) (s : σ), J s → J (ApplyFields f fs s).2
  | [], s, hs => by simp only [ApplyFields]; exact hs
  | (k, v) :: rest, s, hs => by
    have h1 := Apply_keeps f J hf v s hs
    have h2 := ApplyFields_keeps f J hf rest _ h1
    simp only [ApplyFields]
    exact h2
theorem ApplyElems_keeps {σ : Type} (f : Node → σ → (Node × Bool) × σ) (J : σ → Prop)
    (hf : ∀ n s, n ≠ .nil → J s → J (f n s).2) :
    ∀ (es : List Node) (s : σ), J s → J (ApplyElems f es s).2
  | [], s, hs => by simp only [ApplyElems]; exact hs
  | v :: rest, s, hs => by
    have h1 := Apply_keeps f J hf v s hs
    have h2 := ApplyElems_keeps f J hf rest _ h1
    simp only [ApplyElems]
    exact h2
end

/-- C12: in one pass, `Check` runs only at non-nil nodes that the kind guard lets
through (any property `P` of the world that `Check` keeps at those nodes, and
`Construct` keeps, still holds after the pass, with nothing assumed of `Check`
elsewhere). With an Object pattern as matcher the guard skips every non-nil node
that is not an Object, and with an Array pattern (that is not also an Object
pattern, which the source tests first) every non-nil node that is not a List; the
nil node is not handed to the callback at all. A skipped node is returned as it
is, with the captured state untouched, so a tree that is a single leaf, null
included, is returned unchanged with no error and the world as it was. -/
theorem applyMap_kind_guard {ω : Type} (src dst : Op ω) (n : Node) (w : ω)
    (P : ω → Prop) (hP : P w)
    (hchk : ∀ n' w', n' ≠ .nil → applyMap.skip src n' = false → P w' →
      P (src.Check NewState n' w').2)
    (hcon : ∀ st w', P w' → P (dst.Construct st .nil w').2) :
    P (applyMap src dst n w).2 ∧
    (∀ n', n' ≠ .nil → src.isObjectOp = true → n'.isObject = false →
      applyMap.skip src n' = true) ∧
    (∀ n', n' ≠ .nil → src.isObjectOp = false → src.isArrayOp = true → n'.isList = false →
      applyMap.skip src n' = true) ∧
    (∀ n' s, applyMap.skip src n' = true → applyMap.visit src dst n' s = ((n', false), s)) ∧
    (∀ v, src.isObjectOp = true ∨ src.isArrayOp = true →
      applyMap src dst (.val v) w = ((.val v, none), w)) ∧
    applyMap src dst .nil w = ((.nil, none), w) := by
  have hskipO : ∀ n', n' ≠ .nil → src.isObjectOp = true → n'.isObject = false →
      applyMap.skip src n' = true := by
    intro n' hn ho hi
    cases n' with
    | nil => exact absurd rfl hn
    | obj fs => simp [Node.isObject] at hi
    | list es => simp [applyMap.skip, ho, Node.isObject]
    | val v => simp [applyMap.skip, ho, Node.isObject]
  have hskipA : ∀ n', n' ≠ .nil → src.isObjectOp = false → src.isArrayOp = true →
      n'.isList = false → applyMap.skip src n' = true := by
    intro n' hn ho ha hi
    cases n' with
    | nil => exact absurd rfl hn
    | obj fs => simp [applyMap.skip, ho, ha, Node.isList]
    | list es => simp [Node.isList] at hi
    | val v => simp [applyMap.skip, ho, ha, Node.isList]
  have hvisit : ∀ n' s, applyMap.skip src n' = true →
      applyMap.visit src dst n' s = ((n', false), s) := by
    intro n' s hs
    unfold applyMap.visit
    rw [if_pos hs]
  refine ⟨?_, hskipO, hskipA, hvisit, ?_, ?_⟩
  · have hA := Apply_keeps (applyMap.visit src dst) (fun s => P s.2)
      (by
        intro n' s hn hs
        unfold applyMap.visit
        cases hsk : applyMap.skip src n' with
        | true => simpa using hs
        | false =>
          have hc := hchk n' s.2 hn hsk hs
          simp only [Bool.false_eq_true, if_false]
          split
          · exact hc
          · split
            · exact hc
            · split
              · exact hcon _ _ hc
              · exact hcon _ _ hc)
      n ([], w) hP
    unfold applyMap
    simp only []
    split <;> exact hA
  · intro v hv
    have hs : applyMap.skip src (.val v) = true := by
      rcases hv with ho | ha
      · exact hskipO _ (by simp) ho rfl
      · cases ho : src.isObjectOp with
        | true => exact hskipO _ (by simp) ho rfl
        | false => exact hskipA _ (by simp) ho ha rfl
    unfold applyMap
    simp only [Apply, hvisit _ _ hs]
    simp
  · unfold applyMap
    simp [Apply]

/-- C12 at the list `["a", nil]` with an Object pattern whose `Check` fails at nil
and counts its calls at other nodes that are not objects: the count is still 0
after the pass, and the leaves `"a"` and nil come back unchanged with no error. -/
theorem applyMap_kind_guard_witness :
    (applyMap exObjOp exObjOp exTreeNil 0).2 = 0 ∧
    applyMap exObjOp exObjOp (.val (.str "a")) 0 = ((.val (.str "a"), none), 0) ∧
    applyMap exObjOp exObjOp .nil 0 = ((.nil, none), 0) :=
  ⟨(applyMap_kind_guard exObjOp exObjOp exTreeNil 0 (fun w => w = 0) rfl
      (fun n' w' hn hs hw => by
        cases n' with
        | nil => exact absurd rfl hn
        | obj fs => exact hw
        | list es => simp [applyMap.skip, exObjOp, Node.isObject] at hs
        | val v => simp [applyMap.skip, exObjOp, Node.isObject] at hs)
      (fun _ _ hw => hw)).1,
    (applyMap_kind_guard exObjOp exObjOp exTreeNil 0 (fun w => w = 0) rfl
      (fun n' w' hn hs hw => by
        cases n' with
        | nil => exact absurd rfl hn
        | obj fs => exact hw
        | list es => simp [applyMap.skip, exObjOp, Node.isObject] at hs
        | val v => simp [applyMap.skip, exObjOp, Node.isObject] at hs)
      (fun _ _ hw => hw)).2.2.2.2.1 (.str "a") (Or.inl rfl),
    (applyMap_kind_guard exObjOp exObjOp exTreeNil 0 (fun w => w = 0) rfl
      (fun n' w' hn hs hw => by
        cases n' with
        | nil => exact absurd rfl hn
        | obj fs => exact hw
        | list es => simp [applyMap.skip, exObjOp, Node.isObject] at hs
        | val v => simp [applyMap.skip, exObjOp, Node.isObject] at hs)
      (fun _ _ hw => hw)).2.2.2.2.2⟩

theorem inHeap_newObject (h : Heap) (st : State) (name : String) (hin : st.inHeap h) :
    st.inHeap (h.newObject name).1 := hin

theorem StartObject_facts (h : Heap) (st : State) (name : String) (hin : st.inHeap h) :
    (st.StartObject h name).1.2.inHeap (st.StartObject h name).1.1 ∧
    (st.StartObject h name).1.1.objs = h.objs ++ [{ name := name, fields := [] }] ∧
    (∀ k, (st.StartObject h name).1.2.GetVar (st.StartObject h name).1.1 k
        = match st.GetVar h k with
          | some v => some v
          | none => if name ≠ "" ∧ k = name then some (.fields h.objs.length) else none) ∧
    (∀ k, (st.StartObject h name).1.2.GetStateVar (st.StartObject h name).1.1 k
        = st.GetStateVar h k) ∧
    ((st.StartObject h name).2.2 = none →
      (st.StartObject h name).2.1 = some name ∧
      (st.StartObject h name).1.2.objs = st.objs ++ [h.objs.length]) ∧
    ((st.StartObject h name).2.2 ≠ none →
      (st.StartObject h name).2.1 = none ∧
      (st.StartObject h name).1.2 = st ∧ name ≠ "" ∧ st.GetVar h name ≠ none) ∧
    (name = "" ∨ st.GetVar h name = none → (st.StartObject h name).2.2 = none) := by
  by_cases hn : name = ""
  · subst hn
    have hres : st.StartObject h "" =
        (((h.newObject "").1, { st with objs := st.objs ++ [h.objs.length] }), some "", none) := by
      simp [State.StartObject, Heap.newObject]
    rw [hres]
    refine ⟨hin, rfl, ?_, fun _ => rfl, fun _ => ⟨rfl, rfl⟩, fun hne => absurd rfl hne,
      fun _ => rfl⟩
    intro k
    show st.GetVar h k = _
    cases st.GetVar h k <;> simp
  · obtain ⟨f1, f2, f3, f4, f5, f6, f7⟩ :=
      SetVar_facts (h.newObject name).1 st name (.fields (h.newObject name).2)
        (inHeap_newObject h st name hin)
    have hg : ∀ k, st.GetVar (h.newObject name).1 k = st.GetVar h k := fun _ => rfl
    have hgs : ∀ k, st.GetStateVar (h.newObject name).1 k = st.GetStateVar h k := fun _ => rfl
    have hvars : ∀ k, (st.SetVar (h.newObject name).1 name (.fields (h.newObject name).2)).1.2.GetVar
        (st.SetVar (h.newObject name).1 name (.fields (h.newObject name).2)).1.1 k
        = match st.GetVar h k with
          | some v => some v
          | none => if name ≠ "" ∧ k = name then some (.fields h.objs.length) else none := by
      intro k
      rw [f7 k, hg]
      cases st.GetVar h k with
      | some v => rfl
      | none =>
        by_cases hk : k = name
        · simp [hk, hn, Heap.newObject]
        · simp [hk]
    have hstates : ∀ k, (st.SetVar (h.newObject name).1 name
          (.fields (h.newObject name).2)).1.2.GetStateVar
        (st.SetVar (h.newObject name).1 name (.fields (h.newObject name).2)).1.1 k
        = st.GetStateVar h k := by
      intro k
      unfold State.GetStateVar
      rw [f2, f4]
      rfl
    cases herr : (st.SetVar (h.newObject name).1 name (.fields (h.newObject name).2)).2 with
    | none =>
      have hres : st.StartObject h name =
          (((st.SetVar (h.newObject name).1 name (.fields (h.newObject name).2)).1.1,
            { (st.SetVar (h.newObject name).1 name (.fields (h.newObject name).2)).1.2 with
              objs := (st.SetVar (h.newObject name).1 name
                (.fields (h.newObject name).2)).1.2.objs ++ [(h.newObject name).2] }),
            some name, none) := by
        simp only [State.StartObject, ne_eq, hn, not_false_eq_true, if_true, herr]
      rw [hres]
      refine ⟨f1, ?_, hvars, hstates, fun _ => ⟨rfl, ?_⟩, fun hne => absurd rfl hne,
        fun _ => rfl⟩
      · rw [f5]; rfl
      · show _ ++ _ = _
        rw [f3]; rfl
    | some e =>
      have hres : st.StartObject h name =
          ((st.SetVar (h.newObject name).1 name (.fields (h.newObject name).2)).1,
            none, some e) := by
        simp only [State.StartObject, ne_eq, hn, not_false_eq_true, if_true, herr]
      have hbound : st.GetVar h name ≠ none := by
        intro hnone
        have := f6 (by rw [hg]; exact hnone)
        rw [herr] at this
        cases this
      have hst : (st.SetVar (h.newObject name).1 name (.fields (h.newObject name).2)).1.2 = st := by
        unfold State.GetVar at hbound
        unfold State.SetVar
        have hb2 : mapGet ((h.newObject name).1.varsAt st.vars) name
            = mapGet (h.varsAt st.vars) name := rfl
        rw [hb2]
        cases hget : mapGet (h.varsAt st.vars) name with
        | none => exact absurd hget hbound
        | some cur =>
          simp only []
          split
          · split <;> rfl
          · rfl
      rw [hres]
      refine ⟨f1, ?_, hvars, hstates, (fun hne => by cases hne), fun _ => ⟨rfl, hst, hn, hbound⟩,
        ?_⟩
      · show (st.SetVar (h.newObject name).1 name (.fields (h.newObject name).2)).1.1.objs = _
        rw [f5]; rfl
      · intro hor
        rcases hor with h1 | h2
        · exact absurd h1 hn
        · exact absurd h2 hbound

theorem finish_top (h : Heap) (st : State) (name : String) (base : List Addr) (p : Addr)
    (hobjs : st.objs = base ++ [p]) (hname : (h.objAt p).name = name) :
    st.finish h name = ({ st with objs := base }, none) := by
  unfold State.finish
  have hlen : st.objs.length = base.length + 1 := by rw [hobjs]; simp
  have hne : ¬ st.objs.length = 0 := by rw [hlen]; exact Nat.succ_ne_zero _
  have hcur : st.objs.getD (st.objs.length - 1) 0 = p := by
    rw [hlen, hobjs]
    simp [List.getD_eq_getElem?_getD]
  have htake : st.objs.take (st.objs.length - 1) = base := by
    rw [hlen, hobjs]
    simp
  simp only [hne, if_false, hcur, htake, hname, ne_eq, not_true_eq_false]

theorem objAt_append (h h' : Heap) (ext : List procObject) (p : Addr)
    (hext : h'.objs = h.objs ++ ext) (hp : p < h.objs.length) :
    h'.objAt p = h.objAt p := by
  unfold Heap.objAt
  rw [hext, List.getD_eq_getElem?_getD, List.getD_eq_getElem?_getD,
    List.getElem?_append_left hp]

mutual
theorem Nest_run_facts : ∀ (x : Nest) (h : Heap) (st : State), st.inHeap h →
    (x.run h st).1.2.inHeap (x.run h st).1.1 ∧
    (∃ ext, (x.run h st).1.1.objs = h.objs ++ ext) ∧
    (∀ p, (x.run h st).2 ≠ .panicked p) ∧
    ((x.run h st).2 = .done → (x.run h st).1.2.objs = st.objs)
  | .node name inner, h, st, hin => by
    obtain ⟨s1, s2, _, _, s5, _, _⟩ := StartObject_facts h st name hin
    simp only [Nest.run]
    cases herr : (st.StartObject h name).2.2 with
    | some e =>
      simp only []
      exact ⟨s1, ⟨_, s2⟩, (fun p hp => by cases hp), fun hd => by cases hd⟩
    | none =>
      simp only []
      obtain ⟨_, hobjs⟩ := s5 herr
      obtain ⟨c1, ⟨ext, c2⟩, c3, c4⟩ :=
        Nest_runAll_facts inner (st.StartObject h name).1.1 (st.StartObject h name).1.2 s1
      have hheap : (Nest.runAll inner (st.StartObject h name).1.1
          (st.StartObject h name).1.2).1.1.objs
          = h.objs ++ ([{ name := name, fields := [] }] ++ ext) := by
        rw [c2, s2, List.append_assoc]
      cases hc : (Nest.runAll inner (st.StartObject h name).1.1
          (st.StartObject h name).1.2).2 with
      | failed e =>
        simp only []
        exact ⟨c1, ⟨_, hheap⟩, (fun p hp => by cases hp), fun hd => by cases hd⟩
      | panicked p => exact absurd hc (c3 p)
      | done =>
        simp only []
        have hstack := c4 hc
        rw [hobjs] at hstack
        have hname : ((Nest.runAll inner (st.StartObject h name).1.1
            (st.StartObject h name).1.2).1.1.objAt h.objs.length).name = name := by
          unfold Heap.objAt
          rw [hheap, List.getD_eq_getElem?_getD, List.getElem?_append_right (le_refl _)]
          simp
        rw [finish_top _ _ name st.objs h.objs.length hstack hname]
        simp only []
        exact ⟨c1, ⟨_, hheap⟩, (fun p hp => by cases hp), fun _ => trivial⟩
theorem Nest_runAll_facts : ∀ (xs : List Nest) (h : Heap) (st : State), st.inHeap h →
    (Nest.runAll xs h st).1.2.inHeap (Nest.runAll xs h st).1.1 ∧
    (∃ ext, (Nest.runAll xs h st).1.1.objs = h.objs ++ ext) ∧
    (∀ p, (Nest.runAll xs h st).2 ≠ .panicked p) ∧
    ((Nest.runAll xs h st).2 = .done → (Nest.runAll xs h st).1.2.objs = st.objs)
  | [], h, st, hin => by
    simp only [Nest.runAll]
    exact ⟨hin, ⟨[], by simp⟩, (fun p hp => by cases hp), fun _ => trivial⟩
  | x :: rest, h, st, hin => by
    obtain ⟨r1, ⟨ext, r2⟩, r3, r4⟩ := Nest_run_facts x h st hin
    simp only [Nest.runAll]
    cases hr : (x.run h st).2 with
    | failed e =>
      simp only []
      exact ⟨r1, ⟨ext, r2⟩, (fun p hp => by cases hp), fun hd => by cases hd⟩
    | panicked p => exact absurd hr (r3 p)
    | done =>
      simp only []
      obtain ⟨c1, ⟨ext2, c2⟩, c3, c4⟩ :=
        Nest_runAll_facts rest (x.run h st).1.1 (x.run h st).1.2 r1
      refine ⟨c1, ⟨ext ++ ext2, ?_⟩, c3, fun hd => ?_⟩
      · rw [c2, r2, List.append_assoc]
      · rw [c4 hd, r4 hr]
end

/-- C15: for a name that is empty or unbound, `StartObject(name)` returns no error
and a function, pushes one frame (at the fresh address) with an empty field map on
top of the stack, and binds a non-empty name to that field map; the returned
function, called while that frame is on top, pops it and leaves the stack as it
was before `StartObject`, without a panic; a properly nested run of such calls
never panics and, when no `StartObject` in it fails, ends with the stack it
started from. -/
theorem StartObject_push_pop (h : Heap) (st : State) (name : String)
    (hin : st.inHeap h) (hname : name = "" ∨ st.GetVar h name = none) :
    (st.StartObject h name).2.2 = none ∧
    (st.StartObject h name).2.1 = some name ∧
    (st.StartObject h name).1.2.objs = st.objs ++ [h.objs.length] ∧
    (st.StartObject h name).1.1.objAt h.objs.length = { name := name, fields := [] } ∧
    (name ≠ "" →
      (st.StartObject h name).1.2.GetVar (st.StartObject h name).1.1 name
        = some (.fields h.objs.length)) ∧
    (∀ (h₂ : Heap) (st₂ : State), st₂.objs = st.objs ++ [h.objs.length] →
      (h₂.objAt h.objs.length).name = name →
      st₂.finish h₂ name = ({ st₂ with objs := st.objs }, none)) ∧
    (st.StartObject h name).1.2.finish (st.StartObject h name).1.1 name
      = ({ (st.StartObject h name).1.2 with objs := st.objs }, none) ∧
    (∀ (x : Nest) (h₂ : Heap) (st₂ : State), st₂.inHeap h₂ →
      (∀ p, (x.run h₂ st₂).2 ≠ .panicked p) ∧
      ((x.run h₂ st₂).2 = .done → (x.run h₂ st₂).1.2.objs = st₂.objs)) := by
  obtain ⟨_, s2, s3, _, s5, _, s7⟩ := StartObject_facts h st name hin
  have herr := s7 hname
  obtain ⟨hf, hobjs⟩ := s5 herr
  have hframe : (st.StartObject h name).1.1.objAt h.objs.length
      = { name := name, fields := [] } := by
    unfold Heap.objAt
    rw [s2, List.getD_eq_getElem?_getD, List.getElem?_append_right (le_refl _)]
    simp
  refine ⟨herr, hf, hobjs, hframe, ?_, ?_, ?_, ?_⟩
  · intro hne
    rw [s3 name]
    rcases hname with h1 | h2
    · exact absurd h1 hne
    · rw [h2]
      simp [hne]
  · intro h₂ st₂ ho hn
    exact finish_top h₂ st₂ name st.objs h.objs.length ho hn
  · exact finish_top _ _ name st.objs h.objs.length hobjs (by rw [hframe])
  · intro x h₂ st₂ hin₂
    obtain ⟨_, _, n3, n4⟩ := Nest_run_facts x h₂ st₂ hin₂
    exact ⟨n3, n4⟩

/-- C15 at the state of `exHeap` and the unbound name `q`, with a nested run that
ends normally. -/
theorem StartObject_push_pop_witness :
    exState.inHeap exHeap ∧ exState.GetVar exHeap "q" = none ∧
    (exState.StartObject exHeap "q").1.2.objs = exState.objs ++ [exHeap.objs.length] ∧
    (exState.StartObject exHeap "q").1.2.finish (exState.StartObject exHeap "q").1.1 "q"
      = ({ (exState.StartObject exHeap "q").1.2 with objs := exState.objs }, none) ∧
    (exNest.run exHeap exState).2 = .done ∧
    (exNest.run exHeap exState).1.2.objs = exState.objs :=
  ⟨by decide, rfl,
    (StartObject_push_pop exHeap exState "q" (by decide) (Or.inr rfl)).2.2.1,
    (StartObject_push_pop exHeap exState "q" (by decide) (Or.inr rfl)).2.2.2.2.2.2.1,
    rfl,
    ((StartObject_push_pop exHeap exState "q" (by decide) (Or.inr rfl)).2.2.2.2.2.2.2
      exNest exHeap exState (by decide)).2 rfl⟩

/-- C19: for a non-empty name that is already bound, `StartObject(name)` fails with
`ErrVariableRedeclared` and returns no function; the state is returned as it was
(no frame pushed) and every variable and state variable reads as before. The
frame that the call allocated is on no stack. -/
theorem StartObject_bound (h : Heap) (st : State) (name : String) (cur : Bound)
    (hne : name ≠ "") (hb : st.GetVar h name = some cur) :
    st.StartObject h name
      = (((h.newObject name).1, st), none,
          some (.ErrVariableRedeclared name (.bound cur) (.bound (.fields h.objs.length)))) ∧
    (st.StartObject h name).1.2.objs = st.objs ∧
    (∀ k, (st.StartObject h name).1.2.GetVar (st.StartObject h name).1.1 k
        = st.GetVar h k) ∧
    (∀ k, (st.StartObject h name).1.2.GetStateVar (st.StartObject h name).1.1 k
        = st.GetStateVar h k) := by
  have hset : st.SetVar (h.newObject name).1 name (.fields (h.newObject name).2)
      = (((h.newObject name).1, st),
          some (.ErrVariableRedeclared name (.bound cur) (.bound (.fields h.objs.length)))) := by
    unfold State.GetVar at hb
    have hb2 : mapGet ((h.newObject name).1.varsAt st.vars) name = some cur := hb
    unfold State.SetVar
    rw [hb2]
    simp only [Bound.asValue]
    split
    · next v1 v2 h1 h2 => cases h2
    · rfl
  have hres : st.StartObject h name
      = (((h.newObject name).1, st), none,
          some (.ErrVariableRedeclared name (.bound cur) (.bound (.fields h.objs.length)))) := by
    simp only [State.StartObject, ne_eq, hne, not_false_eq_true, if_true, hset]
  rw [hres]
  exact ⟨rfl, rfl, fun _ => rfl, fun _ => rfl⟩

/-- C19 at `exFrameState`, in which `f` is bound to the field map of a frame opened
under that name. -/
theorem StartObject_bound_witness :
    exFrameState.GetVar exFrameHeap "f" = some (.fields 0) ∧
    (exFrameState.StartObject exFrameHeap "f").2
      = (none, some (.ErrVariableRedeclared "f" (.bound (.fields 0)) (.bound (.fields 1)))) ∧
    (exFrameState.StartObject exFrameHeap "f").1.2 = exFrameState :=
  ⟨rfl,
    by rw [(StartObject_bound exFrameHeap exFrameState "f" (.fields 0) (by decide) rfl).1]; rfl,
    by rw [(StartObject_bound exFrameHeap exFrameState "f" (.fields 0) (by decide) rfl).1]⟩


/-- C18 fails in the code: `exFrameState` has one open frame, with no consumed key,
to whose field map `f` is bound. After `st2 = st.Clone()`, the stack of the clone
points to the same frame, and `st2.UseKey("k", 1)` records `k` in the frame of the
original state; the variable `f` of the original reads the changed map. -/
theorem Clone_UseKey_shared :
    exFrameState.objs = [0] ∧
    (exFrameState.Clone exFrameHeap).2.objs = [0] ∧
    (exFrameHeap.objAt 0).fields = [] ∧
    (((exFrameState.Clone exFrameHeap).2.UseKey (exFrameState.Clone exFrameHeap).1
        "k" (.val (.int 1))).objAt 0).fields = [("k", .val (.int 1))] ∧
    exFrameState.GetVar exFrameHeap "f" = some (.fields 0) ∧
    exFrameHeap.nodeOf (.fields 0) = .obj [] ∧
    ((exFrameState.Clone exFrameHeap).2.UseKey (exFrameState.Clone exFrameHeap).1
        "k" (.val (.int 1))).nodeOf (.fields 0) = .obj [("k", .val (.int 1))] :=
  ⟨rfl, rfl, rfl, rfl, rfl, rfl, rfl⟩


theorem mergeVars_lengths (t : Option Addr) (src : List (String × Bound)) :
    ∀ (hh : Heap),
      (src.foldl (fun hh kv =>
          match mapGet (hh.varsAt t) kv.1 with
          | some _ => hh
          | none => hh.writeVars t kv.1 kv.2) hh).vars.length = hh.vars.length ∧
      (src.foldl (fun hh kv =>
          match mapGet (hh.varsAt t) kv.1 with
          | some _ => hh
          | none => hh.writeVars t kv.1 kv.2) hh).states.length = hh.states.length := by
  induction src with
  | nil => intro hh; exact ⟨rfl, rfl⟩
  | cons kv rest ih =>
    intro hh
    simp only [List.foldl_cons]
    cases mapGet (hh.varsAt t) kv.1 with
    | some c => exact ih hh
    | none =>
      simp only []
      obtain ⟨i1, i2⟩ := ih (hh.writeVars t kv.1 kv.2)
      exact ⟨by rw [i1, vars_length_writeVars], by rw [i2, states_length_writeVars]⟩

theorem mergeStates_lengths (t : Option Addr) (src : List (String × List Addr)) :
    ∀ (hh : Heap),
      (src.foldl (fun hh kv =>
          match mapGet (hh.statesAt t) kv.1 with
          | some _ => hh
          | none => hh.writeStates t kv.1 kv.2) hh).vars.length = hh.vars.length ∧
      (src.foldl (fun hh kv =>
          match mapGet (hh.statesAt t) kv.1 with
          | some _ => hh
          | none => hh.writeStates t kv.1 kv.2) hh).states.length = hh.states.length := by
  induction src with
  | nil => intro hh; exact ⟨rfl, rfl⟩
  | cons kv rest ih =>
    intro hh
    simp only [List.foldl_cons]
    cases mapGet (hh.statesAt t) kv.1 with
    | some c => exact ih hh
    | none =>
      simp only []
      obtain ⟨i1, i2⟩ := ih (hh.writeStates t kv.1 kv.2)
      exact ⟨by rw [i1, vars_length_writeStates], by rw [i2, states_length_writeStates]⟩

theorem ApplyFrom_inHeap (h : Heap) (st st2 : State) (hin : st.inHeap h) :
    (st.ApplyFrom h st2).2.inHeap (st.ApplyFrom h st2).1 := by
  obtain ⟨hv, hs⟩ := hin
  have hA : ∃ (a : Heap × State),
      a = (if (h.varsAt st2.vars).length ≠ 0 ∧ st.vars = none then
            ((h.makeVars).1, { st with vars := some (h.makeVars).2 })
          else (h, st)) ∧
      (∀ x ∈ a.2.vars, x < a.1.vars.length) ∧
      (∀ x ∈ a.2.states, x < a.1.states.length) := by
    refine ⟨_, rfl, ?_⟩
    by_cases hc : (h.varsAt st2.vars).length ≠ 0 ∧ st.vars = none
    · rw [if_pos hc]
      refine ⟨?_, hs⟩
      intro x hx
      simp only [Option.mem_def, Option.some.injEq] at hx
      rw [← hx]
      simp [Heap.makeVars]
    · rw [if_neg hc]
      exact ⟨hv, hs⟩
  obtain ⟨a, ha, a1, a2⟩ := hA
  obtain ⟨p1, p2⟩ := mergeVars_lengths a.2.vars (a.1.varsAt st2.vars) a.1
  generalize hh1 : (a.1.varsAt st2.vars).foldl (fun hh kv =>
      match mapGet (hh.varsAt a.2.vars) kv.1 with
      | some _ => hh
      | none => hh.writeVars a.2.vars kv.1 kv.2) a.1 = h1 at p1 p2
  have hB : ∃ (b : Heap × State),
      b = (if (h1.statesAt st2.states).length ≠ 0 ∧ a.2.states = none then
            ((h1.makeStates).1, { a.2 with states := some (h1.makeStates).2 })
          else (h1, a.2)) ∧
      (∀ x ∈ b.2.vars, x < b.1.vars.length) ∧
      (∀ x ∈ b.2.states, x < b.1.states.length) := by
    refine ⟨_, rfl, ?_⟩
    by_cases hc : (h1.statesAt st2.states).length ≠ 0 ∧ a.2.states = none
    · rw [if_pos hc]
      refine ⟨?_, ?_⟩
      · intro x hx
        have : x < h1.vars.length := by rw [p1]; exact a1 x hx
        exact this
      · intro x hx
        simp only [Option.mem_def, Option.some.injEq] at hx
        rw [← hx]
        simp [Heap.makeStates]
    · rw [if_neg hc]
      exact ⟨fun x hx => by rw [p1]; exact a1 x hx, fun x hx => by rw [p2]; exact a2 x hx⟩
  obtain ⟨b, hb, b1, b2⟩ := hB
  obtain ⟨q1, q2⟩ := mergeStates_lengths b.2.states (b.1.statesAt st2.states) b.1
  generalize hh2 : (b.1.statesAt st2.states).foldl (fun hh kv =>
      match mapGet (hh.statesAt b.2.states) kv.1 with
      | some _ => hh
      | none => hh.writeStates b.2.states kv.1 kv.2) b.1 = h2 at q1 q2
  have hres : st.ApplyFrom h st2 =
      (h2, { b.2 with objs :=
        if st2.objs.length > b.2.objs.length then b.2.objs ++ st2.objs.drop b.2.objs.length
        else b.2.objs }) := by
    unfold State.ApplyFrom
    simp only []
    rw [← ha, hh1, ← hb, hh2]
  rw [hres]
  exact ⟨fun x hx => by rw [q1]; exact b1 x hx, fun x hx => by rw [q2]; exact b2 x hx⟩

theorem SetStateVar_facts (h : Heap) (st : State) (name : String) (sub : List Addr)
    (hin : st.inHeap h) :
    (st.SetStateVar h name sub).1.2.inHeap (st.SetStateVar h name sub).1.1 ∧
    (∀ k, (st.SetStateVar h name sub).1.2.GetVar (st.SetStateVar h name sub).1.1 k
        = st.GetVar h k) ∧
    (∀ k, (st.SetStateVar h name sub).1.2.GetStateVar (st.SetStateVar h name sub).1.1 k
        = match st.GetStateVar h k with
          | some v => some v
          | none => if k = name then some sub else none) := by
  obtain ⟨hv, hs⟩ := hin
  unfold State.SetStateVar State.GetVar State.GetStateVar
  cases hget : mapGet (h.statesAt st.states) name with
  | some cur =>
    refine ⟨⟨hv, hs⟩, fun _ => rfl, ?_⟩
    intro k
    show mapGet (h.statesAt st.states) k = _
    cases hk : mapGet (h.statesAt st.states) k with
    | some v => rfl
    | none =>
      have : ¬ k = name := by intro e; rw [e] at hk; rw [hk] at hget; cases hget
      simp [this]
  | none =>
    simp only []
    cases hx : st.states with
    | none =>
      simp only [if_true]
      refine ⟨⟨?_, ?_⟩, ?_, ?_⟩
      · intro a ha
        rw [vars_length_writeStates]
        exact hv a ha
      · intro a ha
        simp only [Heap.makeStates, Option.mem_def, Option.some.injEq] at ha
        rw [states_length_writeStates, ← ha]
        simp [Heap.makeStates]
      · intro k
        rw [varsAt_writeStates, varsAt_makeStates]
      · intro k
        show mapGet (((h.makeStates).1.writeStates (some (h.makeStates).2) name sub).statesAt
          (some (h.makeStates).2)) k = _
        rw [statesAt_writeStates_self _ _ _ _ (by simp [Heap.makeStates]), statesAt_makeStates,
          mapGet_mapSet]
        have : h.statesAt (some (h.makeStates).2) = [] := by
          simp [Heap.statesAt, Heap.makeStates, List.getD_eq_getElem?_getD]
        rw [this]
        simp only [Heap.statesAt, mapGet]
    | some a =>
      have ha : a < h.states.length := hs a hx
      simp only [reduceCtorEq, if_false]
      refine ⟨⟨?_, ?_⟩, ?_, ?_⟩
      · intro a' ha'
        rw [vars_length_writeStates]
        exact hv a' ha'
      · intro a' ha'
        rw [states_length_writeStates]
        exact hs a' ha'
      · intro k
        rw [varsAt_writeStates]
      · intro k
        rw [hx, statesAt_writeStates_self _ _ _ _ ha, mapGet_mapSet]
        rw [hx] at hget
        by_cases hk : k = name
        · subst hk
          simp [hget]
        · simp only [if_neg hk]
          cases mapGet (h.statesAt (some a)) k <;> rfl

theorem act_mono (h : Heap) (st : State) (a : Action) (hin : st.inHeap h) :
    (st.act h a).2.inHeap (st.act h a).1 ∧
    (∀ k v, st.GetVar h k = some v → (st.act h a).2.GetVar (st.act h a).1 k = some v) ∧
    (∀ k v, st.GetStateVar h k = some v →
      (st.act h a).2.GetStateVar (st.act h a).1 k = some v) := by
  cases a with
  | SetVar name val =>
    obtain ⟨f1, f2, _, f4, _, _, f7⟩ := SetVar_facts h st name val hin
    refine ⟨f1, fun k v hk => ?_, fun k v hk => ?_⟩
    · show (st.SetVar h name val).1.2.GetVar (st.SetVar h name val).1.1 k = some v
      rw [f7 k, hk]
    · show (st.SetVar h name val).1.2.GetStateVar (st.SetVar h name val).1.1 k = some v
      unfold State.GetStateVar at hk ⊢
      rw [f2, f4, hk]
  | SetStateVar name sub =>
    obtain ⟨f1, f2, f3⟩ := SetStateVar_facts h st name sub hin
    refine ⟨f1, fun k v hk => ?_, fun k v hk => ?_⟩
    · show (st.SetStateVar h name sub).1.2.GetVar (st.SetStateVar h name sub).1.1 k = some v
      rw [f2 k, hk]
    · show (st.SetStateVar h name sub).1.2.GetStateVar (st.SetStateVar h name sub).1.1 k
        = some v
      rw [f3 k, hk]
  | ApplyFrom st2 =>
    obtain ⟨g1, g2⟩ := ApplyFrom_get h st st2 hin
    refine ⟨ApplyFrom_inHeap h st st2 hin, fun k v hk => ?_, fun k v hk => ?_⟩
    · show (st.ApplyFrom h st2).2.GetVar (st.ApplyFrom h st2).1 k = some v
      rw [g1 k, hk]
    · show (st.ApplyFrom h st2).2.GetStateVar (st.ApplyFrom h st2).1 k = some v
      rw [g2 k, hk]
  | StartObject name =>
    obtain ⟨s1, _, s3, s4, _, _, _⟩ := StartObject_facts h st name hin
    refine ⟨s1, fun k v hk => ?_, fun k v hk => ?_⟩
    · show (st.StartObject h name).1.2.GetVar (st.StartObject h name).1.1 k = some v
      rw [s3 k, hk]
    · show (st.StartObject h name).1.2.GetStateVar (st.StartObject h name).1.1 k = some v
      rw [s4 k, hk]

theorem acts_mono (as : List Action) :
    ∀ (h : Heap) (st : State), st.inHeap h →
      (st.acts h as).2.inHeap (st.acts h as).1 ∧
      (∀ k v, st.GetVar h k = some v → (st.acts h as).2.GetVar (st.acts h as).1 k = some v) ∧
      (∀ k v, st.GetStateVar h k = some v →
        (st.acts h as).2.GetStateVar (st.acts h as).1 k = some v) := by
  induction as with
  | nil => intro h st hin; exact ⟨hin, fun _ _ hk => hk, fun _ _ hk => hk⟩
  | cons a rest ih =>
    intro h st hin
    obtain ⟨m1, m2, m3⟩ := act_mono h st a hin
    obtain ⟨i1, i2, i3⟩ := ih _ _ m1
    simp only [State.acts]
    exact ⟨i1, fun k v hk => i2 k v (m2 k v hk), fun k v hk => i3 k v (m3 k v hk)⟩

theorem acts_append (pre post : List Action) :
    ∀ (h : Heap) (st : State),
      st.acts h (pre ++ post) = (st.acts h pre).2.acts (st.acts h pre).1 post := by
  induction pre with
  | nil => intro h st; rfl
  | cons a rest ih =>
    intro h st
    simp only [List.cons_append, State.acts]
    exact ih _ _

/-- C20: in any sequence of `SetVar`, `SetStateVar`, `ApplyFrom` and `StartObject`
calls on a state, whether they succeed or fail, a variable or a state variable
that is bound after some of the calls is bound to the same value after every later
call. -/
theorem bindings_write_once (h : Heap) (st : State) (hin : st.inHeap h)
    (pre post : List Action) (k : String) :
    (∀ v, (st.acts h pre).2.GetVar (st.acts h pre).1 k = some v →
      (st.acts h (pre ++ post)).2.GetVar (st.acts h (pre ++ post)).1 k = some v) ∧
    (∀ v, (st.acts h pre).2.GetStateVar (st.acts h pre).1 k = some v →
      (st.acts h (pre ++ post)).2.GetStateVar (st.acts h (pre ++ post)).1 k = some v) := by
  obtain ⟨p1, _, _⟩ := acts_mono pre h st hin
  obtain ⟨_, q2, q3⟩ := acts_mono post _ _ p1
  rw [acts_append]
  exact ⟨fun v hv => q2 k v hv, fun v hv => q3 k v hv⟩

/-- C20 at the state of `exHeap`: `z` is bound to `true`, then rebound (a failure),
merged over and `StartObject` is called on it (a failure); it still reads `true`. -/
theorem bindings_write_once_witness :
    exState.inHeap exHeap ∧
    (exState.acts exHeap [.SetVar "z" (.node (.val (.bool true)))]).2.GetVar
        (exState.acts exHeap [.SetVar "z" (.node (.val (.bool true)))]).1 "z"
      = some (.node (.val (.bool true))) ∧
    (exState.acts exHeap ([.SetVar "z" (.node (.val (.bool true)))] ++
        [.SetVar "z" (.node (.val (.bool false))), .SetStateVar "s" [3],
          .ApplyFrom exFrameState, .StartObject "z"])).2.GetVar
      (exState.acts exHeap ([.SetVar "z" (.node (.val (.bool true)))] ++
        [.SetVar "z" (.node (.val (.bool false))), .SetStateVar "s" [3],
          .ApplyFrom exFrameState, .StartObject "z"])).1 "z"
      = some (.node (.val (.bool true))) :=
  ⟨by decide, rfl,
    (bindings_write_once exHeap exState (by decide) _ _ "z").1 _ rfl⟩


theorem ConstructAll_roles (h : Heap) (st : State) (roles : List Role) :
    OpExpr.ConstructAll h st (roles.map fun r => OpExpr.Is (.val (.str r.name)))
      = .ok (roles.map Role.node) := by
  induction roles with
  | nil => rfl
  | cons r rest ih =>
    simp only [List.map_cons, OpExpr.ConstructAll, OpExpr.Construct, ih]
    rfl

theorem Construct_Roles (h : Heap) (st : State) (roles : List Role) :
    (Roles roles).Construct h st = .ok (.list (roles.map Role.node)) := by
  simp only [Roles, OpExpr.Construct, ConstructAll_roles]

theorem Construct_AppendArr_two (h : Heap) (st : State) (a b : OpExpr) (A B : List Node)
    (ha : a.Construct h st = .ok (.list A)) (hb : b.Construct h st = .ok (.list B)) :
    (OpExpr.AppendArr [a, b]).Construct h st = .ok (.list (A ++ B)) := by
  simp only [OpExpr.Construct, OpExpr.ConstructAll, ha, hb, Node.concat, Node.elems,
    List.append_nil]

theorem Construct_Append_one (h : Heap) (st : State) (a b : OpExpr) (A B : List Node)
    (ha : a.Construct h st = .ok (.list A)) (hb : b.Construct h st = .ok (.list B)) :
    (OpExpr.Append a [b]).Construct h st = .ok (.list (A ++ B)) := by
  simp only [OpExpr.Construct, OpExpr.ConstructAll, ha, hb, Node.concat, Node.elems,
    List.append_nil]

theorem Construct_NotEmpty_Var (h : Heap) (st : State) (vr : String) (L : List Node)
    (hvar : st.GetVar h vr = some (.node (.list L))) (hL : L ≠ []) :
    (OpExpr.NotEmpty (.Var vr)).Construct h st = .ok (.list L) := by
  simp only [OpExpr.Construct, State.MustGetVar, hvar, Heap.nodeOf]
  cases L with
  | nil => exact absurd rfl hL
  | cons x xs => rfl

theorem Construct_If_true (h : Heap) (st : State) (cond : String) (a b : OpExpr)
    (hflag : st.GetVar h cond = some (.node (.val (.bool true)))) :
    (OpExpr.If cond a b).Construct h st = a.Construct h st := by
  simp only [OpExpr.Construct, State.MustGetVar, hflag]

theorem Construct_If_false (h : Heap) (st : State) (cond : String) (a b : OpExpr)
    (hflag : st.GetVar h cond = some (.node (.val (.bool false)))) :
    (OpExpr.If cond a b).Construct h st = b.Construct h st := by
  simp only [OpExpr.Construct, State.MustGetVar, hflag]

theorem Construct_If_unbound (h : Heap) (st : State) (cond : String) (a b : OpExpr)
    (hflag : st.GetVar h cond = none) :
    (OpExpr.If cond a b).Construct h st = .error (.ErrVariableNotDefined cond) := by
  simp only [OpExpr.Construct, State.MustGetVar, hflag]

theorem Construct_AppendRoles (h : Heap) (st : State) (op : OpExpr) (roles : List Role)
    (R : List Node) (hroles : roles ≠ []) (hop : op.Construct h st = .ok (.list R)) :
    (AppendRoles op roles).Construct h st = .ok (.list (R ++ roles.map Role.node)) := by
  have hlen : ¬ roles.length = 0 := by
    intro h0
    exact hroles (List.length_eq_zero.mp h0)
  simp only [AppendRoles, hlen, if_false]
  exact Construct_AppendArr_two h st op (Roles roles) R _ hop (Construct_Roles h st roles)

theorem Construct_rop (h : Heap) (st : State) (op : OpExpr) (roles : List Role)
    (R : List Node) (hop : op.Construct h st = .ok (.list R)) :
    (if roles.length ≠ 0 then AppendRoles op roles else op).Construct h st
      = .ok (.list (R ++ roles.map Role.node)) := by
  cases roles with
  | nil => simpa using hop
  | cons r rest =>
    have hne : (r :: rest).length ≠ 0 := by simp
    rw [if_pos hne]
    exact Construct_AppendRoles h st op (r :: rest) R (by simp) hop

/-- The order in which the roles field of `RolesFieldOp` merges, for every static
role list and every array operation that constructs a list `R`: when the flag of
the left roles holds `true` and the roles variable holds the non-empty list `L`,
it constructs `L`, then `R`, then the static roles; when the flag holds `false` it
constructs `R`, then the static roles; when the flag is not bound it fails. -/
theorem RolesFieldOp_order (h : Heap) (st : State) (vr : String) (op : OpExpr)
    (roles : List Role) (R : List Node)
    (hop : op.Construct h st = .ok (.list R)) :
    (∀ L, st.GetVar h (vr ++ "_exists") = some (.node (.val (.bool true))) →
      st.GetVar h vr = some (.node (.list L)) → L ≠ [] →
      (RolesFieldOp vr (some op) roles).Op.Construct h st
        = .ok (.list (L ++ R ++ roles.map Role.node))) ∧
    (st.GetVar h (vr ++ "_exists") = some (.node (.val (.bool false))) →
      (RolesFieldOp vr (some op) roles).Op.Construct h st
        = .ok (.list (R ++ roles.map Role.node))) ∧
    (st.GetVar h (vr ++ "_exists") = none →
      (RolesFieldOp vr (some op) roles).Op.Construct h st
        = .error (.ErrVariableNotDefined (vr ++ "_exists"))) := by
  have hrop := Construct_rop h st op roles R hop
  have hfield : (RolesFieldOp vr (some op) roles).Op
      = .If (vr ++ "_exists")
          (.Append (.NotEmpty (.Var vr))
            [if roles.length ≠ 0 then AppendRoles op roles else op])
          (if roles.length ≠ 0 then AppendRoles op roles else op) := by
    simp [RolesFieldOp]
  rw [hfield]
  refine ⟨?_, ?_, ?_⟩
  · intro L hflag hvar hL
    rw [Construct_If_true h st _ _ _ hflag,
      Construct_Append_one h st _ _ L _ (Construct_NotEmpty_Var h st vr L hvar hL) hrop,
      List.append_assoc]
  · intro hflag
    rw [Construct_If_false h st _ _ _ hflag]
    exact hrop
  · intro hflag
    exact Construct_If_unbound h st _ _ _ hflag

/-- C11 at the failing input: the type `T`, the array operation `Roles(Binary)` and
the static role `Identifier`, on a state in which the left side saved the roles
`["Old"]` and bound their flag to `true` (so that `If` takes its first branch,
whether it reads the value of the flag or only that it is bound).
`ASTObjectRight` returns the caller's
field, the type field and the roles field of `RolesFieldOp`, and that field
constructs `["Old", "Binary", "Identifier"]`: the roles of the operation come
before the static ones. The order stated, left, static, operation, which is also
the order that the comment in `ASTObjectRight` lists, is
`["Old", "Identifier", "Binary"]`. -/
theorem RolesFieldOp_op_before_static :
    ASTObjectRight "T" exPattern (some (Roles [exBinary])) [exIdentifier]
      = .ok (.Part "_" (.Fields (exPattern.Object ++
          [{ Name := KeyType, Op := OpExpr.String "T", Optional := "" },
           RolesFieldOp "T_roles" (some (Roles [exBinary])) [exIdentifier]]))) ∧
    exState.GetVar exRolesHeap "T_roles" = some (.node (.list [.val (.str "Old")])) ∧
    exState.GetVar exRolesHeap "T_roles_exists" = some (.node (.val (.bool true))) ∧
    (Roles [exIdentifier]).Construct exRolesHeap exState = .ok (.list [exIdentifier.node]) ∧
    (Roles [exBinary]).Construct exRolesHeap exState = .ok (.list [exBinary.node]) ∧
    (RolesFieldOp "T_roles" (some (Roles [exBinary])) [exIdentifier]).Op.Construct
        exRolesHeap exState
      = .ok (.list [.val (.str "Old"), exBinary.node, exIdentifier.node]) ∧
    Node.list [.val (.str "Old"), exBinary.node, exIdentifier.node]
      ≠ Node.list ([.val (.str "Old")] ++ [exIdentifier.node] ++ [exBinary.node]) :=
  ⟨rfl, rfl, rfl, rfl, rfl, rfl, by simp [Role.node, exBinary, exIdentifier]⟩

end Transformer
